import Mathlib

/-!
Verification of the imagegen repository core (shallow embedding).

The source is a Rust program that grows an image by repeatedly placing
best-fitting candidate colors next to a frontier of already placed pixels.
We embed the pure content of the relevant functions:

* `src/imagegen/src/color.rs` — `Color = Simd<Channel, 4>` and the fitness
  computation from `generate.rs` (channel arithmetic is modelled exactly over
  `ℚ`; the claims under study are about selection logic and lane structure,
  not floating-point rounding).
* `src/imagegen/src/generate.rs` — best-fit scan, worker chunking and
  reduction, seed placement, `place_pixel_inner`, `validate_inner_edges`.
* `src/bitmap/src/lib.rs` — packed `BitMap` with `get`/`set`/`for_each_false`.
* `src/imagegen/src/geometry.rs` — `NSWrappingGeometry::canonicalize`.
* `src/imagegen/src/pnmdata.rs` — row-major image buffer indexing.

Randomness (`rng.gen_range`, `choose_multiple`) is modelled by explicit
oracle inputs; channels are modelled by `tokio`-free explicit data flow.
-/

/-- `Channel` is `f64` in the source (`color.rs`); modelled with exact
rational arithmetic. -/
abbrev Channel : Type := ℚ

/-- `Color = Simd<Channel, 4>` (`color.rs` line 11): a 4-lane vector.
Lane 3 is the padding lane (`from_3` always sets it to `0.0`). -/
structure Color where
  lane0 : Channel
  lane1 : Channel
  lane2 : Channel
  lane3 : Channel
deriving DecidableEq, Repr

instance : Inhabited Color := ⟨⟨0, 0, 0, 0⟩⟩

/-- Lanewise subtraction of `Simd` vectors (`color - new_color`). -/
def Color.sub (a b : Color) : Color :=
  ⟨a.lane0 - b.lane0, a.lane1 - b.lane1, a.lane2 - b.lane2, a.lane3 - b.lane3⟩

/-- Lanewise multiplication of `Simd` vectors (`diff * diff`). -/
def Color.mul (a b : Color) : Color :=
  ⟨a.lane0 * b.lane0, a.lane1 * b.lane1, a.lane2 * b.lane2, a.lane3 * b.lane3⟩

/-- `sq_diff.as_array().iter().sum()`: the sum of all four lanes. -/
def Color.laneSum (a : Color) : Channel :=
  a.lane0 + a.lane1 + a.lane2 + a.lane3

/-- `from_3` (`color.rs` lines 13-15): builds a color with padding lane `0`. -/
def from_3 (r g b : Channel) : Color := ⟨r, g, b, 0⟩

/-- The fitness computation of `InnerGenerator::generate`
(`generate.rs` lines 205-207 and 310-312):
`diff = color - new_color; sq_diff = diff * diff;`
`fitness = sq_diff.as_array().iter().sum()`. -/
def fitness (color newColor : Color) : Channel :=
  let diff := Color.sub color newColor
  let sq_diff := Color.mul diff diff
  Color.laneSum sq_diff

/-- `Pixel` (`generate.rs` lines 10-13): signed 2-D coordinates. -/
structure Pixel where
  x : Int
  y : Int
deriving DecidableEq, Repr

instance : Inhabited Pixel := ⟨⟨0, 0⟩⟩

/-- `Offset` (`generate.rs` lines 16-19). -/
structure Offset where
  dx : Int
  dy : Int
deriving DecidableEq, Repr

/-- `impl Add<Offset> for Pixel` (`generate.rs` lines 21-29). -/
def Pixel.add (p : Pixel) (o : Offset) : Pixel :=
  ⟨p.x + o.dx, p.y + o.dy⟩

/-- One update of a per-candidate best during the frontier scan
(`generate.rs` lines 208-211, identically 313-316):
```
match current_best {
    Some((_, current_fitness)) if *current_fitness < fitness => {},
    _ => *current_best = Some((pixel, fitness)),
}
```
The guarded arm keeps the current best only when its fitness is strictly
smaller; in every other case (including equality) the new pair is stored. -/
def bestUpdate (currentBest : Option (Pixel × Channel)) (pixel : Pixel)
    (fit : Channel) : Option (Pixel × Channel) :=
  match currentBest with
  | some (q, currentFitness) =>
    if currentFitness < fit then some (q, currentFitness) else some (pixel, fit)
  | none => some (pixel, fit)

/-- One elementwise step of the supervisor reduction of worker results
(`generate.rs` lines 381-395):
```
match (&*best, &worker, self.maxfitness) {
    (_, None, _) => {},
    (None, Some(_), None) => *best = worker,
    (None, Some((_, fitness)), Some(maxfitness)) =>
        if *fitness < maxfitness { *best = worker },
    (Some((_, bfitness)), Some((_, wfitness)), _) =>
        if wfitness < bfitness { *best = worker },
}
``` -/
def reduceOne (maxfitness : Option Channel)
    (best worker : Option (Pixel × Channel)) : Option (Pixel × Channel) :=
  match best, worker, maxfitness with
  | b, none, _ => b
  | none, some w, none => some w
  | none, some (p, fit), some maxfit =>
    if fit < maxfit then some (p, fit) else none
  | some (bp, bfitness), some (wp, wfitness), _ =>
    if wfitness < bfitness then some (wp, wfitness) else some (bp, bfitness)

/-- Claim C2 as stated — "equal fitness does NOT replace" — is false:
with a current best of fitness 1, a different pixel with the same fitness 1
does replace it (the guard `current_fitness < fitness` fails on equality, so
the default arm overwrites). -/
theorem C2_counterexample :
    bestUpdate (some (⟨0, 0⟩, 1)) ⟨1, 0⟩ 1 = some (⟨1, 0⟩, 1) ∧
      (⟨1, 0⟩ : Pixel) ≠ ⟨0, 0⟩ := by
  constructor
  · rfl
  · decide

/-- Claim C2, amended: during best-fit selection a frontier pixel replaces
the current best exactly when its fitness is less than or equal to the
current best fitness; equal fitness does replace (so the last minimizer in
scan order wins). A `none` best is always replaced. -/
theorem C2_amended (pb p : Pixel) (fb f : Channel) :
    (bestUpdate (some (pb, fb)) p f = some (p, f) ∨
        bestUpdate (some (pb, fb)) p f = some (pb, fb)) ∧
    (f ≤ fb → bestUpdate (some (pb, fb)) p f = some (p, f)) ∧
    (fb < f → bestUpdate (some (pb, fb)) p f = some (pb, fb)) ∧
    bestUpdate none p f = some (p, f) := by
  refine ⟨?_, ?_, ?_, rfl⟩
  · unfold bestUpdate
    by_cases h : fb < f
    · simp [h]
    · simp [h]
  · intro hle
    unfold bestUpdate
    simp [not_lt.mpr hle]
  · intro hlt
    unfold bestUpdate
    simp [hlt]

/-- Closed witness for `C2_amended` at concrete fitnesses. -/
theorem C2_amended_witness :
    (bestUpdate (some (⟨0, 0⟩, (2 : Channel))) ⟨1, 1⟩ 2 = some (⟨1, 1⟩, 2) ∨
        bestUpdate (some (⟨0, 0⟩, (2 : Channel))) ⟨1, 1⟩ 2 = some (⟨0, 0⟩, 2)) ∧
    ((2 : Channel) ≤ 2 →
      bestUpdate (some (⟨0, 0⟩, (2 : Channel))) ⟨1, 1⟩ 2 = some (⟨1, 1⟩, 2)) ∧
    ((2 : Channel) < 2 →
      bestUpdate (some (⟨0, 0⟩, (2 : Channel))) ⟨1, 1⟩ 2 = some (⟨0, 0⟩, 2)) ∧
    bestUpdate none ⟨1, 1⟩ (2 : Channel) = some (⟨1, 1⟩, 2) :=
  C2_amended ⟨0, 0⟩ ⟨1, 1⟩ 2 2

/-- Claim C4 as stated — fitness ignores lane 3 — is false: two colors that
agree on the first three lanes but differ in lane 3 have nonzero fitness,
whereas the three-lane formula gives `0`. -/
theorem C4_counterexample :
    fitness ⟨0, 0, 0, 1⟩ ⟨0, 0, 0, 0⟩ = 1 ∧
      (((0 : Channel) - 0) ^ 2 + ((0 : Channel) - 0) ^ 2 +
          ((0 : Channel) - 0) ^ 2) = 0 := by
  constructor
  · norm_num [fitness, Color.sub, Color.mul, Color.laneSum]
  · norm_num

/-- Claim C4, amended: the fitness is the squared-Euclidean distance over
all four lanes; it equals the three-lane formula exactly when the two colors
have equal lane-3 values (in particular for colors built by `from_3`, whose
lane 3 is `0`). -/
theorem C4_amended (e c : Color) :
    fitness e c =
      (e.lane0 - c.lane0) ^ 2 + (e.lane1 - c.lane1) ^ 2 +
        (e.lane2 - c.lane2) ^ 2 + (e.lane3 - c.lane3) ^ 2 ∧
    (e.lane3 = c.lane3 →
      fitness e c =
        (e.lane0 - c.lane0) ^ 2 + (e.lane1 - c.lane1) ^ 2 +
          (e.lane2 - c.lane2) ^ 2) := by
  constructor
  · simp [fitness, Color.sub, Color.mul, Color.laneSum]
    ring
  · intro h
    simp [fitness, Color.sub, Color.mul, Color.laneSum, h]
    ring

/-- Closed witness for `C4_amended` on concrete colors with equal lane 3. -/
theorem C4_amended_witness :
    fitness (from_3 1 0 0) (from_3 0 1 0) =
        ((1 : Channel) - 0) ^ 2 + ((0 : Channel) - 1) ^ 2 +
          ((0 : Channel) - 0) ^ 2 + ((0 : Channel) - 0) ^ 2 ∧
    ((0 : Channel) = 0 →
      fitness (from_3 1 0 0) (from_3 0 1 0) =
        ((1 : Channel) - 0) ^ 2 + ((0 : Channel) - 1) ^ 2 +
          ((0 : Channel) - 0) ^ 2) :=
  C4_amended (from_3 1 0 0) (from_3 0 1 0)

/-- `CanonicalPixel` (`geometry.rs` lines 7-10). -/
structure CanonicalPixel where
  x : Nat
  y : Nat
deriving DecidableEq, Repr

/-- Rust `as usize` applied to an `isize` value: two's-complement
reinterpretation into `[0, 2^64)` (64-bit target). -/
def usizeOfIsize (t : Int) : Nat := (t % (2 ^ 64 : Int)).toNat

/-- Rust `usize::try_from` on a signed value: `Ok` exactly for nonnegative
inputs. -/
def usizeTryFrom (t : Int) : Option Nat := if 0 ≤ t then some t.toNat else none

/-- `NSWrappingGeometry::<NS_WRAP, EW_WRAP>::canonicalize`
(`geometry.rs` lines 34-58). The wrapping branch is
`(location.x as isize % self.dimx.get() as isize) as usize`: Rust `%` on
`isize` is the truncating remainder (`Int.tmod`), followed by an unsigned
cast; the non-wrapping branch is `usize::try_from` plus a bounds check. -/
def NSWrappingGeometry.canonicalize (nsWrap ewWrap : Bool) (dimx dimy : Nat)
    (location : Pixel) : Option CanonicalPixel :=
  let ox : Option Nat :=
    if ewWrap then
      some (usizeOfIsize (Int.tmod location.x (dimx : Int)))
    else
      match usizeTryFrom location.x with
      | some x => if x < dimx then some x else none
      | none => none
  match ox with
  | none => none
  | some x =>
    let oy : Option Nat :=
      if nsWrap then
        some (usizeOfIsize (Int.tmod location.y (dimy : Int)))
      else
        match usizeTryFrom location.y with
        | some y => if y < dimy then some y else none
        | none => none
    match oy with
    | none => none
    | some y => some ⟨x, y⟩

/-- Claim C8: the spec (and the comment `// x mod self.dimx` in the source)
demand floor-mod wrapping, under which `x = -1` with width `4` canonicalizes
to `3`. The code instead computes the truncating remainder and bit-casts it
to `usize`, so `x = -1` yields `2^64 - 1`, a wildly out-of-bounds
"canonical" pixel. This is the code bug exhibited at the failing input
`(x, y) = (-1, 0)` with `dimx = dimy = 4`, EW wrapping enabled. -/
theorem C8_code_bug :
    NSWrappingGeometry.canonicalize false true 4 4 ⟨-1, 0⟩ =
        some ⟨18446744073709551615, 0⟩ ∧
      (18446744073709551615 : Nat) ≠ 3 ∧ Int.emod (-1) 4 = 3 := by
  refine ⟨?_, by decide, by decide⟩
  rfl

/-- `BitMap` (`bitmap/src/lib.rs` lines 47-55): packed bits, 8 to a byte,
each row starting on a new byte. Bytes are modelled as naturals `< 256`. -/
structure BitMap where
  data : List Nat
  stride : Nat
  width : Nat
  height : Nat
deriving DecidableEq, Repr

namespace BitMap

/-- `BitMap::new` (`lib.rs` lines 59-64): `stride = (width + 7) / 8`,
all bits initialized to `false`. (The overflow checks always succeed in the
model.) -/
def new (height width : Nat) : BitMap :=
  let stride := (width + 7) / 8
  ⟨List.replicate (height * stride) 0, stride, width, height⟩

/-- `BitMap::get` (`lib.rs` lines 66-73):
`byte_idx = row * stride + col / 8`, `bit_idx = col % 8`,
`data[byte_idx] & (1 << bit_idx) != 0`. The source panics when
`row ≥ height ∨ col ≥ width`; the model is total and theorems restrict to
in-bounds indices. -/
def get (bm : BitMap) (rc : Nat × Nat) : Bool :=
  Nat.testBit (bm.data.getD (rc.1 * bm.stride + rc.2 / 8) 0) (rc.2 % 8)

/-- `BitMap::set` (`lib.rs` lines 75-87): `byte |= 1 << bit_idx` or
`byte &= !(1 << bit_idx)` (for a `u8`, `!(1 << b) = 255 ^^^ (1 << b)`). -/
def set (bm : BitMap) (rc : Nat × Nat) (value : Bool) : BitMap :=
  let byteIdx := rc.1 * bm.stride + rc.2 / 8
  let bitIdx := rc.2 % 8
  let byte := bm.data.getD byteIdx 0
  { bm with
    data := bm.data.set byteIdx
      (if value then byte ||| (1 <<< bitIdx)
       else byte &&& (255 ^^^ (1 <<< bitIdx))) }

/-- Well-formedness established by `BitMap::new` and preserved by `set`:
the stride and backing length match the struct invariants documented in
`lib.rs` (`stride >= width.div_ceil(8)`, one stride of bytes per row). -/
def WF (bm : BitMap) : Prop :=
  bm.stride = (bm.width + 7) / 8 ∧ bm.data.length = bm.height * bm.stride

/-- Inner bit loop of `BitMap::for_each_false` (`lib.rs` lines 115-124) over
a list of remaining bit indices of one byte: returns the visited cells and
whether `continue 'rows` fired (a column `≥ width` was reached). -/
def rowVisitBits (byte byteCol width row : Nat) :
    List Nat → List (Nat × Nat) × Bool
  | [] => ([], false)
  | bitCol :: rest =>
    let col := (byteCol <<< 3) ||| bitCol
    if width ≤ col then ([], true)
    else
      let r := rowVisitBits byte byteCol width row rest
      if Nat.testBit byte bitCol then r else ((row, col) :: r.1, r.2)

/-- Byte loop of `BitMap::for_each_false` (`lib.rs` lines 112-125) over the
bytes of one row (`data[start_byte..][..stride]`), starting at `byte_col`. -/
def rowVisitBytes (width row : Nat) : List Nat → Nat → List (Nat × Nat)
  | [], _ => []
  | byte :: rest, byteCol =>
    let r := rowVisitBits byte byteCol width row (List.range 8)
    if r.2 then r.1 else r.1 ++ rowVisitBytes width row rest (byteCol + 1)

/-- `BitMap::for_each_false` (`lib.rs` lines 109-126), with the callback
reified as the list of visited `(row, col)` pairs in visit order. -/
def forEachFalseList (bm : BitMap) : List (Nat × Nat) :=
  (List.range bm.height).flatMap fun row =>
    rowVisitBytes bm.width row
      ((bm.data.drop (row * bm.stride)).take bm.stride) 0

end BitMap

namespace BitMap

/-- `(byte_col << 3) | bit_col` equals `8 * byte_col + bit_col` for bit
indices below 8. -/
theorem shiftOrEq (b k : Nat) (hk : k < 8) : (b <<< 3) ||| k = 8 * b + k := by
  apply Nat.eq_of_testBit_eq
  intro i
  rw [Nat.testBit_lor, Nat.testBit_shiftLeft]
  rcases Nat.lt_or_ge i 3 with hi | hi
  · have hd : ¬ (3 ≤ i) := by omega
    simp only [hd, decide_False, Bool.false_and, Bool.false_or]
    rw [Nat.testBit_to_div_mod, Nat.testBit_to_div_mod]
    have hpow : (2 : Nat) ^ i * 2 ^ (3 - i) = 8 := by
      rw [← Nat.pow_add]
      have h3 : i + (3 - i) = 3 := by omega
      rw [h3]
    have h1 : 8 * b + k = 2 ^ i * (2 ^ (3 - i) * b) + k := by
      rw [← Nat.mul_assoc, hpow]
    rw [h1, Nat.mul_add_div (Nat.pos_pow_of_pos i (by norm_num))]
    have h2 : 2 ^ (3 - i) * b = 2 * (2 ^ (3 - i - 1) * b) := by
      rw [← Nat.mul_assoc]
      have h4 : 2 * 2 ^ (3 - i - 1) = 2 ^ (3 - i) := by
        rw [← Nat.pow_succ']
        have h5 : (3 - i - 1).succ = 3 - i := by omega
        rw [h5]
      rw [h4]
    rw [h2, Nat.add_comm (2 * (2 ^ (3 - i - 1) * b)) (k / 2 ^ i)]
    rw [Nat.add_mul_mod_self_left]
  · simp only [hi, decide_True, Bool.true_and]
    have hk8 : Nat.testBit k i = false := by
      apply Nat.testBit_lt_two_pow
      calc k < 8 := hk
        _ = 2 ^ 3 := by norm_num
        _ ≤ 2 ^ i := Nat.pow_le_pow_right (by norm_num) hi
    rw [hk8, Bool.or_false]
    rw [Nat.testBit_to_div_mod, Nat.testBit_to_div_mod]
    have h1 : 2 ^ i = 8 * 2 ^ (i - 3) := by
      have h6 : (8 : Nat) * 2 ^ (i - 3) = 2 ^ (3 + (i - 3)) := by
        rw [Nat.pow_add]
      rw [h6]
      have h7 : 3 + (i - 3) = i := by omega
      rw [h7]
    rw [h1, ← Nat.div_div_eq_div_mul]
    have h2 : (8 * b + k) / 8 = b := by
      rw [Nat.mul_add_div (by norm_num)]
      have h8 : k / 8 = 0 := Nat.div_eq_of_lt hk
      omega
    rw [h2]

/-- The bit loop of `for_each_false` over bit indices `[s, s+n)` of one byte
visits exactly the in-width columns whose bit is clear, and reports
`continue 'rows` exactly when some visited column reached the width. -/
theorem rowVisitBits_range (byte byteCol width row s n : Nat)
    (hsn : s + n ≤ 8) :
    rowVisitBits byte byteCol width row (List.range' s n) =
      (((List.range' (8 * byteCol + s) n).filter fun col =>
          decide (col < width) && !Nat.testBit byte (col % 8)).map
        fun col => (row, col),
       decide (n ≠ 0 ∧ width ≤ 8 * byteCol + s + n - 1)) := by
  induction n generalizing s with
  | zero => simp [rowVisitBits]
  | succ n ih =>
    rw [List.range'_succ, List.range'_succ]
    show (let col := (byteCol <<< 3) ||| s;
      if width ≤ col then ([], true)
      else
        let r := rowVisitBits byte byteCol width row (List.range' (s + 1) n)
        if Nat.testBit byte s then r else ((row, col) :: r.1, r.2)) = _
    simp only
    rw [shiftOrEq byteCol s (by omega)]
    by_cases hw : width ≤ 8 * byteCol + s
    · rw [if_pos hw]
      have hfilter :
          ((8 * byteCol + s) :: List.range' (8 * byteCol + s + 1) n).filter
              (fun col => decide (col < width) && !Nat.testBit byte (col % 8)) =
            [] := by
        rw [List.filter_eq_nil_iff]
        intro a ha
        rcases List.mem_cons.mp ha with h | h
        · subst h
          simp only [Bool.and_eq_true, decide_eq_true_eq, not_lt]
          intro hcontra
          omega
        · have := (List.mem_range').mp h
          simp only [Bool.and_eq_true, decide_eq_true_eq, not_lt]
          intro hcontra
          omega
      rw [hfilter]
      have hflag2 : decide (n + 1 ≠ 0 ∧ width ≤ 8 * byteCol + s + (n + 1) - 1) =
          true := by
        rw [decide_eq_true_eq]
        exact ⟨by omega, by omega⟩
      rw [hflag2]
      simp
    · rw [if_neg hw]
      rw [ih (s + 1) (by omega)]
      have hflag : (decide (n ≠ 0 ∧ width ≤ 8 * byteCol + (s + 1) + n - 1)) =
          (decide (n + 1 ≠ 0 ∧ width ≤ 8 * byteCol + s + (n + 1) - 1)) := by
        apply decide_eq_decide.mpr
        constructor
        · intro ⟨h1, h2⟩
          exact ⟨by omega, by omega⟩
        · intro ⟨h1, h2⟩
          constructor
          · rcases Nat.eq_zero_or_pos n with h | h
            · subst h
              omega
            · omega
          · omega
      have hmod : (8 * byteCol + s) % 8 = s := by
        rw [Nat.add_comm, Nat.add_mul_mod_self_left]
        exact Nat.mod_eq_of_lt (by omega)
      by_cases hb : Nat.testBit byte s
      · rw [if_pos hb]
        rw [List.filter_cons]
        have hcond : (decide (8 * byteCol + s < width) &&
            !Nat.testBit byte ((8 * byteCol + s) % 8)) = false := by
          rw [hmod, hb]
          simp
        rw [hcond]
        simp only [Bool.false_eq_true, if_false]
        rw [hflag]
        have harith : 8 * byteCol + (s + 1) = 8 * byteCol + s + 1 := by omega
        rw [harith]
      · rw [if_neg hb]
        rw [List.filter_cons]
        have hcond : (decide (8 * byteCol + s < width) &&
            !Nat.testBit byte ((8 * byteCol + s) % 8)) = true := by
          rw [hmod]
          simp only [Bool.and_eq_true, decide_eq_true_eq]
          constructor
          · omega
          · simp [hb]
        rw [hcond]
        simp only [if_true, List.map_cons]
        rw [hflag]
        have harith : 8 * byteCol + (s + 1) = 8 * byteCol + s + 1 := by omega
        rw [harith]

end BitMap

namespace BitMap

/-- The byte loop of `for_each_false` over the remaining bytes of a row,
starting at byte index `byteCol`, visits exactly the in-width columns whose
bit is clear, in increasing column order. -/
theorem rowVisitBytes_eq (width row : Nat) (bytes : List Nat) (byteCol : Nat) :
    rowVisitBytes width row bytes byteCol =
      ((List.range' (8 * byteCol) (8 * bytes.length)).filter fun col =>
          decide (col < width) &&
            !Nat.testBit (bytes.getD (col / 8 - byteCol) 0) (col % 8)).map
        fun col => (row, col) := by
  induction bytes generalizing byteCol with
  | nil => simp [rowVisitBytes]
  | cons byte rest ih =>
    have hbits := rowVisitBits_range byte byteCol width row 0 8 (by omega)
    rw [← List.range_eq_range'] at hbits
    have hsplit : List.range' (8 * byteCol) (8 * (byte :: rest).length) =
        List.range' (8 * byteCol) 8 ++
          List.range' (8 * byteCol + 8) (8 * rest.length) := by
      rw [List.range'_append_1]
      congr 1
    rw [hsplit, List.filter_append, List.map_append]
    have hseg1 : (List.range' (8 * byteCol) 8).filter
          (fun col => decide (col < width) &&
            !Nat.testBit ((byte :: rest).getD (col / 8 - byteCol) 0) (col % 8)) =
        (List.range' (8 * byteCol + 0) 8).filter
          (fun col => decide (col < width) && !Nat.testBit byte (col % 8)) := by
      rw [Nat.add_zero]
      apply List.filter_congr
      intro col hcol
      have hmem := List.mem_range'_1.mp hcol
      have hdiv : col / 8 = byteCol := by omega
      rw [hdiv, Nat.sub_self, List.getD_cons_zero]
    show (let r := rowVisitBits byte byteCol width row (List.range 8);
        if r.2 then r.1 else r.1 ++ rowVisitBytes width row rest (byteCol + 1)) = _
    rw [hbits]
    simp only
    by_cases hflag : width ≤ 8 * byteCol + 0 + 8 - 1
    · have hdec : decide (8 ≠ 0 ∧ width ≤ 8 * byteCol + 0 + 8 - 1) = true := by
        rw [decide_eq_true_eq]
        exact ⟨by omega, hflag⟩
      rw [hdec, if_pos rfl]
      have hseg2 : (List.range' (8 * byteCol + 8) (8 * rest.length)).filter
            (fun col => decide (col < width) &&
              !Nat.testBit ((byte :: rest).getD (col / 8 - byteCol) 0) (col % 8)) =
          [] := by
        rw [List.filter_eq_nil_iff]
        intro a ha
        have hmem := List.mem_range'_1.mp ha
        simp only [Bool.and_eq_true, decide_eq_true_eq]
        intro hcontra
        omega
      rw [hseg1, hseg2]
      simp
    · have hdec : decide (8 ≠ 0 ∧ width ≤ 8 * byteCol + 0 + 8 - 1) = false := by
        rw [decide_eq_false_iff_not]
        intro hcontra
        exact hflag hcontra.2
      rw [hdec]
      simp only [Bool.false_eq_true, if_false]
      rw [ih (byteCol + 1), hseg1]
      congr 1
      have hstart : 8 * (byteCol + 1) = 8 * byteCol + 8 := by omega
      rw [hstart]
      congr 1
      apply List.filter_congr
      intro col hcol
      have hmem := List.mem_range'_1.mp hcol
      have hge : byteCol + 1 ≤ col / 8 := by omega
      have hsub : col / 8 - byteCol = (col / 8 - (byteCol + 1)) + 1 := by omega
      rw [hsub, List.getD_cons_succ]

end BitMap

namespace BitMap

/-- For a well-formed bitmap, one row of `for_each_false` visits exactly the
columns `col < width` whose bit is clear, in column order. -/
theorem rowVisit_eq (bm : BitMap) (hwf : bm.WF) (row : Nat)
    (hrow : row < bm.height) :
    rowVisitBytes bm.width row
        ((bm.data.drop (row * bm.stride)).take bm.stride) 0 =
      ((List.range bm.width).filter fun col => !bm.get (row, col)).map
        fun col => (row, col) := by
  obtain ⟨hstride, hlen⟩ := hwf
  set bytes := (bm.data.drop (row * bm.stride)).take bm.stride with hbytes
  have hbytelen : bytes.length = bm.stride := by
    rw [hbytes, List.length_take, List.length_drop, hlen]
    have h1 : bm.stride ≤ bm.height * bm.stride - row * bm.stride := by
      have h2 : (row + 1) * bm.stride ≤ bm.height * bm.stride :=
        Nat.mul_le_mul_right _ (by omega)
      have h3 : (row + 1) * bm.stride = row * bm.stride + bm.stride := by ring
      omega
    omega
  have hws : bm.width ≤ 8 * bm.stride := by
    rw [hstride]
    omega
  have hgetbyte : ∀ i, i < bm.stride →
      bytes.getD i 0 = bm.data.getD (row * bm.stride + i) 0 := by
    intro i hi
    rw [List.getD_eq_getElem?_getD, List.getD_eq_getElem?_getD, hbytes]
    rw [List.getElem?_take_of_lt hi, List.getElem?_drop]
  rw [rowVisitBytes_eq]
  rw [hbytelen]
  have hsplit : List.range' (8 * 0) (8 * bm.stride) =
      List.range' 0 bm.width ++
        List.range' (0 + bm.width) (8 * bm.stride - bm.width) := by
    rw [List.range'_append_1]
    congr 1
    omega
  rw [hsplit, List.filter_append, List.map_append]
  have hseg2 : (List.range' (0 + bm.width) (8 * bm.stride - bm.width)).filter
        (fun col => decide (col < bm.width) &&
          !Nat.testBit (bytes.getD (col / 8 - 0) 0) (col % 8)) = [] := by
    rw [List.filter_eq_nil_iff]
    intro a ha
    have hmem := List.mem_range'_1.mp ha
    simp only [Bool.and_eq_true, decide_eq_true_eq]
    intro hcontra
    omega
  rw [hseg2, List.map_nil, List.append_nil]
  have hseg1 : (List.range' 0 bm.width).filter
        (fun col => decide (col < bm.width) &&
          !Nat.testBit (bytes.getD (col / 8 - 0) 0) (col % 8)) =
      (List.range' 0 bm.width).filter (fun col => !bm.get (row, col)) := by
    apply List.filter_congr
    intro col hcol
    have hmem := List.mem_range'_1.mp hcol
    have hc : col < bm.width := by omega
    have hdiv : col / 8 < bm.stride := by omega
    rw [Nat.sub_zero, hgetbyte (col / 8) hdiv]
    have hget : bm.get (row, col) =
        Nat.testBit (bm.data.getD (row * bm.stride + col / 8) 0) (col % 8) := rfl
    rw [hget]
    simp [hc]
  rw [hseg1, List.range_eq_range']

/-- `for_each_false` on a well-formed bitmap, in canonical form: rows in
order, and within each row the clear in-width columns in order. -/
theorem forEachFalseList_eq (bm : BitMap) (hwf : bm.WF) :
    bm.forEachFalseList =
      (List.range bm.height).flatMap fun row =>
        ((List.range bm.width).filter fun col => !bm.get (row, col)).map
          fun col => (row, col) := by
  unfold forEachFalseList
  apply List.flatMap_congr
  intro row hrow
  exact rowVisit_eq bm hwf row (List.mem_range.mp hrow)

end BitMap

/-- Claim C9: on any well-formed `BitMap` (in particular any produced by
`BitMap::new`, including widths not divisible by 8), `for_each_false` visits
a coordinate `(row, col)` exactly when `row < height`, `col < width`, and
the bit is `false`; it never visits padding columns `col ≥ width`, and it
visits no coordinate twice. -/
theorem C9_for_each_false (bm : BitMap) (hwf : bm.WF) :
    (∀ r c, ((r, c) ∈ bm.forEachFalseList ↔
        r < bm.height ∧ c < bm.width ∧ bm.get (r, c) = false)) ∧
      bm.forEachFalseList.Nodup := by
  rw [BitMap.forEachFalseList_eq bm hwf]
  constructor
  · intro r c
    rw [List.mem_flatMap]
    constructor
    · rintro ⟨row, hrow, hmem⟩
      rcases List.mem_map.mp hmem with ⟨col, hcol, heq⟩
      rcases List.mem_filter.mp hcol with ⟨hcr, hbit⟩
      obtain ⟨h1, h2⟩ := Prod.mk.injEq .. ▸ heq
      subst h1
      subst h2
      refine ⟨List.mem_range.mp hrow, List.mem_range.mp hcr, ?_⟩
      simpa using hbit
    · rintro ⟨hr, hc, hbit⟩
      refine ⟨r, List.mem_range.mpr hr, List.mem_map.mpr ⟨c, ?_, rfl⟩⟩
      refine List.mem_filter.mpr ⟨List.mem_range.mpr hc, ?_⟩
      simpa using hbit
  · rw [List.nodup_flatMap]
    constructor
    · intro row hrow
      apply List.Nodup.map
      · intro a b hab
        exact (Prod.mk.injEq .. ▸ hab).2
      · exact (List.nodup_range _).filter _
    · apply List.Pairwise.imp ?_ (List.pairwise_lt_range _)
      intro a b hab
      intro x hxa hxb
      rcases List.mem_map.mp hxa with ⟨ca, hca, heqa⟩
      rcases List.mem_map.mp hxb with ⟨cb, hcb, heqb⟩
      rw [← heqb] at heqa
      have := (Prod.mk.injEq .. ▸ heqa).1
      omega

/-- Closed witness for `C9_for_each_false` on a concrete 2 × 3 bitmap with
one bit set (width 3 exercises the tail byte). -/
theorem C9_for_each_false_witness :
    (∀ r c, ((r, c) ∈ ((BitMap.new 2 3).set (0, 1) true).forEachFalseList ↔
        r < ((BitMap.new 2 3).set (0, 1) true).height ∧
          c < ((BitMap.new 2 3).set (0, 1) true).width ∧
          ((BitMap.new 2 3).set (0, 1) true).get (r, c) = false)) ∧
      ((BitMap.new 2 3).set (0, 1) true).forEachFalseList.Nodup :=
  C9_for_each_false ((BitMap.new 2 3).set (0, 1) true) (by constructor <;> rfl)

namespace BitMap

/-- `set` preserves the backing dimensions and the struct invariants. -/
theorem WF_set (bm : BitMap) (rc : Nat × Nat) (v : Bool) (hwf : bm.WF) :
    (bm.set rc v).WF ∧ (bm.set rc v).height = bm.height ∧
      (bm.set rc v).width = bm.width ∧ (bm.set rc v).stride = bm.stride := by
  obtain ⟨h1, h2⟩ := hwf
  refine ⟨⟨h1, ?_⟩, rfl, rfl, rfl⟩
  simp [set, h2]

/-- The `(row, col) ↦ (byte, bit)` addressing of a well-formed bitmap is
injective on in-bounds coordinates. -/
theorem addr_inj (bm : BitMap) (hwf : bm.WF) (r c r' c' : Nat)
    (hr : r < bm.height) (hc : c < bm.width) (hr' : r' < bm.height)
    (hc' : c' < bm.width)
    (hbyte : r * bm.stride + c / 8 = r' * bm.stride + c' / 8)
    (hbit : c % 8 = c' % 8) : r = r' ∧ c = c' := by
  obtain ⟨hstride, _⟩ := hwf
  have hcs : c / 8 < bm.stride := by
    rw [hstride]
    omega
  have hcs' : c' / 8 < bm.stride := by
    rw [hstride]
    omega
  have hrr : r = r' := by
    rcases Nat.lt_trichotomy r r' with h | h | h
    · exfalso
      have : (r + 1) * bm.stride ≤ r' * bm.stride :=
        Nat.mul_le_mul_right _ (by omega)
      have h3 : (r + 1) * bm.stride = r * bm.stride + bm.stride := by ring
      omega
    · exact h
    · exfalso
      have : (r' + 1) * bm.stride ≤ r * bm.stride :=
        Nat.mul_le_mul_right _ (by omega)
      have h3 : (r' + 1) * bm.stride = r' * bm.stride + bm.stride := by ring
      omega
  subst hrr
  have hdiv : c / 8 = c' / 8 := by omega
  exact ⟨rfl, by omega⟩

/-- Reading after writing: `set` changes exactly the addressed bit
(on a well-formed bitmap, for in-bounds coordinates). -/
theorem get_set (bm : BitMap) (hwf : bm.WF) (r c r' c' : Nat) (v : Bool)
    (hr : r < bm.height) (hc : c < bm.width) (hr' : r' < bm.height)
    (hc' : c' < bm.width) :
    (bm.set (r, c) v).get (r', c') =
      if r = r' ∧ c = c' then v else bm.get (r', c') := by
  obtain ⟨hstride, hlen⟩ := hwf
  have hcs : c / 8 < bm.stride := by
    rw [hstride]
    omega
  have hbyte_lt : r * bm.stride + c / 8 < bm.data.length := by
    rw [hlen]
    have : (r + 1) * bm.stride ≤ bm.height * bm.stride :=
      Nat.mul_le_mul_right _ (by omega)
    have h3 : (r + 1) * bm.stride = r * bm.stride + bm.stride := by ring
    omega
  show Nat.testBit
      (((bm.set (r, c) v).data).getD (r' * bm.stride + c' / 8) 0) (c' % 8) = _
  by_cases hbyte : r * bm.stride + c / 8 = r' * bm.stride + c' / 8
  · have hdata : ((bm.set (r, c) v).data).getD (r' * bm.stride + c' / 8) 0 =
        (if v then (bm.data.getD (r * bm.stride + c / 8) 0) ||| (1 <<< (c % 8))
         else (bm.data.getD (r * bm.stride + c / 8) 0) &&&
            (255 ^^^ (1 <<< (c % 8)))) := by
      show ((bm.data.set (r * bm.stride + c / 8) _).getD (r' * bm.stride + c' / 8) 0) = _
      rw [← hbyte, List.getD_eq_getElem?_getD, List.getElem?_set_self hbyte_lt]
      rfl
    rw [hdata]
    by_cases hbit : c % 8 = c' % 8
    · have heq := addr_inj bm ⟨hstride, hlen⟩ r c r' c' hr hc hr' hc' hbyte hbit
      rw [if_pos heq]
      rw [← hbit]
      have hm8 : c % 8 < 8 := Nat.mod_lt _ (by norm_num)
      cases v with
      | true =>
        rw [if_pos rfl]
        rw [Nat.testBit_lor, Nat.shiftLeft_eq, Nat.one_mul,
          Nat.testBit_two_pow]
        simp
      | false =>
        rw [if_neg Bool.false_ne_true]
        rw [Nat.testBit_land, Nat.testBit_xor, Nat.shiftLeft_eq, Nat.one_mul,
          Nat.testBit_two_pow]
        have h255 : Nat.testBit 255 (c % 8) = decide (c % 8 < 8) := by
          have h256 : (255 : Nat) = 2 ^ 8 - 1 := by norm_num
          rw [h256, Nat.testBit_two_pow_sub_one]
        rw [h255]
        simp [hm8]
    · have hne : ¬ (r = r' ∧ c = c') := by
        rintro ⟨h1, h2⟩
        subst h1
        subst h2
        exact hbit rfl
      rw [if_neg hne]
      have hbm : bm.get (r', c') = Nat.testBit
          (bm.data.getD (r' * bm.stride + c' / 8) 0) (c' % 8) := rfl
      rw [hbm, ← hbyte]
      have hm8 : c' % 8 < 8 := Nat.mod_lt _ (by norm_num)
      have hdec : decide (c % 8 = c' % 8) = false := decide_eq_false hbit
      cases v with
      | true =>
        rw [if_pos rfl]
        rw [Nat.testBit_lor, Nat.shiftLeft_eq, Nat.one_mul,
          Nat.testBit_two_pow, hdec, Bool.or_false]
      | false =>
        rw [if_neg Bool.false_ne_true]
        rw [Nat.testBit_land, Nat.testBit_xor, Nat.shiftLeft_eq, Nat.one_mul,
          Nat.testBit_two_pow, hdec]
        have h255 : Nat.testBit 255 (c' % 8) = decide (c' % 8 < 8) := by
          have h256 : (255 : Nat) = 2 ^ 8 - 1 := by norm_num
          rw [h256, Nat.testBit_two_pow_sub_one]
        rw [h255]
        have hd1 : decide (c' % 8 < 8) = true := decide_eq_true hm8
        rw [hd1]
        simp
  · have hne : ¬ (r = r' ∧ c = c') := by
      rintro ⟨h1, h2⟩
      subst h1
      subst h2
      exact hbyte rfl
    rw [if_neg hne]
    have hdata : ((bm.set (r, c) v).data).getD (r' * bm.stride + c' / 8) 0 =
        bm.data.getD (r' * bm.stride + c' / 8) 0 := by
      show ((bm.data.set (r * bm.stride + c / 8) _).getD
          (r' * bm.stride + c' / 8) 0) = _
      rw [List.getD_eq_getElem?_getD, List.getD_eq_getElem?_getD,
        List.getElem?_set_ne hbyte]
      rw [List.getD_eq_getElem?_getD]
    rw [hdata]
    rfl

end BitMap

namespace BitMap

/-- Number of set bits among the in-bounds coordinates (specification-side
measure used to track `pixels_placed`). -/
def trueCount (bm : BitMap) : Nat :=
  ((List.range bm.height).map fun r =>
    (List.range bm.width).countP fun c => bm.get (r, c)).sum

/-- Auxiliary: a row-sum over `List.range n` is bounded by `n * w` when each
term is bounded by `w`. -/
theorem sum_map_range_le (f : Nat → Nat) (w n : Nat) (h : ∀ i, i < n → f i ≤ w) :
    ((List.range n).map f).sum ≤ n * w := by
  induction n with
  | zero => simp
  | succ n ih =>
    rw [List.range_succ, List.map_append, List.sum_append]
    have h1 := ih (fun i hi => h i (by omega))
    have h2 := h n (by omega)
    simp only [List.map_cons, List.map_nil, List.sum_cons, List.sum_nil]
    have h3 : (n + 1) * w = n * w + w := by ring
    omega

/-- Auxiliary: increasing one term of a row-sum over `List.range n` by one
increases the sum by one. -/
theorem sum_map_range_update (f g : Nat → Nat) (n r : Nat) (hr : r < n)
    (hother : ∀ i, i < n → i ≠ r → g i = f i) (hat : g r = f r + 1) :
    ((List.range n).map g).sum = ((List.range n).map f).sum + 1 := by
  induction n with
  | zero => omega
  | succ n ih =>
    rw [List.range_succ, List.map_append, List.map_append,
      List.sum_append, List.sum_append]
    simp only [List.map_cons, List.map_nil, List.sum_cons, List.sum_nil]
    by_cases hrn : r = n
    · subst hrn
      have hsame : (List.range r).map g = (List.range r).map f := by
        apply List.map_congr_left
        intro i hi
        have hir : i < r := List.mem_range.mp hi
        exact hother i (by omega) (by omega)
      rw [hsame, hat]
      omega
    · have hr' : r < n := by omega
      have h1 := ih hr' (fun i hi hir => hother i (by omega) hir)
      have h2 := hother n (by omega) (fun h => hrn h.symm)
      omega

/-- Auxiliary: a single-point flip from `false` to `true` raises `countP`
over `List.range n` by one. -/
theorem countP_range_update (p q : Nat → Bool) (n c : Nat) (hc : c < n)
    (hother : ∀ i, i < n → i ≠ c → q i = p i) (hp : p c = false)
    (hq : q c = true) :
    (List.range n).countP q = (List.range n).countP p + 1 := by
  induction n with
  | zero => omega
  | succ n ih =>
    rw [List.range_succ, List.countP_append, List.countP_append]
    simp only [List.countP_cons, List.countP_nil]
    by_cases hcn : c = n
    · subst hcn
      have hsame : (List.range c).countP q = (List.range c).countP p := by
        apply List.countP_congr
        intro i hi
        have hic : i < c := List.mem_range.mp hi
        rw [hother i (by omega) (by omega)]
      rw [hsame, hp, hq]
      simp
    · have hc' : c < n := by omega
      have h1 := ih hc' (fun i hi hic => hother i (by omega) hic)
      have h2 := hother n (by omega) (fun h => hcn h.symm)
      rw [h2]
      omega

/-- `trueCount` never exceeds the pixel count. -/
theorem trueCount_le (bm : BitMap) : bm.trueCount ≤ bm.height * bm.width := by
  apply sum_map_range_le
  intro r _
  calc (List.range bm.width).countP (fun c => bm.get (r, c)) ≤
      (List.range bm.width).length := List.countP_le_length _
    _ = bm.width := List.length_range _

/-- Setting a clear in-bounds bit raises `trueCount` by exactly one. -/
theorem trueCount_set_true (bm : BitMap) (hwf : bm.WF) (r c : Nat)
    (hr : r < bm.height) (hc : c < bm.width) (hfalse : bm.get (r, c) = false) :
    (bm.set (r, c) true).trueCount = bm.trueCount + 1 := by
  unfold trueCount
  show ((List.range bm.height).map fun rr =>
      (List.range bm.width).countP fun cc => (bm.set (r, c) true).get (rr, cc)).sum = _
  apply sum_map_range_update _ _ _ r hr
  · intro rr hrr hne
    apply List.countP_congr
    intro cc hcc
    rw [get_set bm hwf r c rr cc true hr hc hrr (List.mem_range.mp hcc)]
    rw [if_neg]
    rintro ⟨h1, _⟩
    exact hne h1.symm
  · apply countP_range_update _ _ _ c hc
    · intro cc hcc hne
      rw [get_set bm hwf r c r cc true hr hc hr hcc]
      rw [if_neg]
      rintro ⟨_, h2⟩
      exact hne h2.symm
    · exact hfalse
    · rw [get_set bm hwf r c r c true hr hc hr hc]
      simp

/-- Set bits stay set under any in-bounds `set _ true`. -/
theorem get_mono_set_true (bm : BitMap) (hwf : bm.WF) (r c r' c' : Nat)
    (hr : r < bm.height) (hc : c < bm.width) (hr' : r' < bm.height)
    (hc' : c' < bm.width) (h : bm.get (r', c') = true) :
    (bm.set (r, c) true).get (r', c') = true := by
  rw [get_set bm hwf r c r' c' true hr hc hr' hc']
  by_cases heq : r = r' ∧ c = c'
  · rw [if_pos heq]
  · rw [if_neg heq]
    exact h

/-- `BitMap::new` is well formed and all its bits are clear. -/
theorem new_spec (height width : Nat) :
    (new height width).WF ∧ (new height width).height = height ∧
      (new height width).width = width ∧
      (∀ r c, (new height width).get (r, c) = false) := by
  refine ⟨⟨rfl, by simp [new]⟩, rfl, rfl, ?_⟩
  intro r c
  show Nat.testBit ((List.replicate _ 0).getD _ 0) _ = false
  rw [List.getD_eq_getElem?_getD, List.getElem?_replicate]
  by_cases h : r * (new height width).stride + c / 8 < height * ((width + 7) / 8)
  · rw [if_pos h]
    simp
  · rw [if_neg h]
    simp

/-- `trueCount` of a fresh bitmap is zero. -/
theorem trueCount_new (height width : Nat) :
    (new height width).trueCount = 0 := by
  unfold trueCount
  have h : ∀ r, (List.range (new height width).width).countP
      (fun c => (new height width).get (r, c)) = 0 := by
    intro r
    rw [List.countP_eq_zero]
    intro c _
    rw [(new_spec height width).2.2.2 r c]
    simp
  rw [List.sum_eq_zero]
  intro x hx
  rcases List.mem_map.mp hx with ⟨r, _, hr⟩
  rw [← hr, h r]

end BitMap

/-- `PnmData` (`pnmdata.rs` lines 3-10): row-major image buffer with stride
`dimx` (comments field omitted; it carries no image data). -/
structure PnmData where
  dimx : Nat
  dimy : Nat
  maxval : Nat
  depth : Nat
  rawdata : List Color
deriving Repr

/-- `impl Index<(usize, usize)> for PnmData` (`pnmdata.rs` lines 12-20):
`idx = y * dimx + x`. -/
def PnmData.getPx (img : PnmData) (yx : Nat × Nat) : Color :=
  img.rawdata.getD (yx.1 * img.dimx + yx.2) default

/-- `impl IndexMut<(usize, usize)> for PnmData` (`pnmdata.rs` lines 23-28). -/
def PnmData.setPx (img : PnmData) (yx : Nat × Nat) (c : Color) : PnmData :=
  { img with rawdata := img.rawdata.set (yx.1 * img.dimx + yx.2) c }

/-- `place_pixel_inner` (`generate.rs` lines 128-144): walk the offsets in
order; the first in-bounds unplaced neighbor receives the color, is marked
placed, and is pushed onto the back of the edge queue; if no offset
qualifies the call fails and nothing is touched. The recursion is on the
offset list; the state is threaded unchanged until a neighbor is found,
exactly as in the source (which performs no mutation before the `return
Ok`). -/
def place_pixel_inner (dimy dimx : Nat) (pixel : Pixel) (color : Color)
    (image : PnmData) (edges : List Pixel) (placed_pixels : BitMap)
    (offsets : List Offset) :
    Option Pixel × PnmData × List Pixel × BitMap :=
  match offsets with
  | [] => (none, image, edges, placed_pixels)
  | offset :: rest =>
    let y := pixel.y + offset.dy
    if y < 0 ∨ dimy ≤ y.toNat then
      place_pixel_inner dimy dimx pixel color image edges placed_pixels rest
    else
      let x := pixel.x + offset.dx
      if x < 0 ∨ dimx ≤ x.toNat then
        place_pixel_inner dimy dimx pixel color image edges placed_pixels rest
      else
        let location : Pixel := ⟨x, y⟩
        if placed_pixels.get (y.toNat, x.toNat) then
          place_pixel_inner dimy dimx pixel color image edges placed_pixels rest
        else
          (some location, image.setPx (y.toNat, x.toNat) color,
            edges ++ [location], placed_pixels.set (y.toNat, x.toNat) true)

/-- The neighbor test of `place_pixel_inner` and `validate_inner_edges`:
in-bounds under the clamped conversions, and unplaced. -/
def openNeighbor (dimy dimx : Nat) (placed_pixels : BitMap) (pixel : Pixel)
    (offset : Offset) : Bool :=
  let y := pixel.y + offset.dy
  if y < 0 ∨ dimy ≤ y.toNat then false
  else
    let x := pixel.x + offset.dx
    if x < 0 ∨ dimx ≤ x.toNat then false
    else !placed_pixels.get (y.toNat, x.toNat)

/-- `validate_inner_edges` (`generate.rs` lines 107-125): retain the edges
that are still placed and still have an in-bounds unplaced neighbor under
some offset. -/
def validate_inner_edges (dimy dimx : Nat) (edges : List Pixel)
    (placed_pixels : BitMap) (offsets : List Offset) : List Pixel :=
  edges.filter fun pixel =>
    placed_pixels.get (pixel.y.toNat, pixel.x.toNat) &&
      offsets.any fun offset => openNeighbor dimy dimx placed_pixels pixel offset

/-- Unfolding equation: one offset step of `place_pixel_inner` either places
at this neighbor (when it is in-bounds and unplaced) or moves on. -/
theorem place_pixel_inner_cons (dimy dimx : Nat) (pixel : Pixel)
    (color : Color) (image : PnmData) (edges : List Pixel)
    (placed_pixels : BitMap) (o : Offset) (rest : List Offset) :
    place_pixel_inner dimy dimx pixel color image edges placed_pixels
        (o :: rest) =
      if openNeighbor dimy dimx placed_pixels pixel o then
        (some ⟨pixel.x + o.dx, pixel.y + o.dy⟩,
          image.setPx ((pixel.y + o.dy).toNat, (pixel.x + o.dx).toNat) color,
          edges ++ [⟨pixel.x + o.dx, pixel.y + o.dy⟩],
          placed_pixels.set ((pixel.y + o.dy).toNat, (pixel.x + o.dx).toNat)
            true)
      else
        place_pixel_inner dimy dimx pixel color image edges placed_pixels
          rest := by
  show (if pixel.y + o.dy < 0 ∨ dimy ≤ (pixel.y + o.dy).toNat then _ else _) = _
  unfold openNeighbor
  by_cases hy : pixel.y + o.dy < 0 ∨ dimy ≤ (pixel.y + o.dy).toNat
  · rw [if_pos hy, if_pos hy]
    simp
  · rw [if_neg hy, if_neg hy]
    by_cases hx : pixel.x + o.dx < 0 ∨ dimx ≤ (pixel.x + o.dx).toNat
    · rw [if_pos hx, if_pos hx]
      simp
    · rw [if_neg hx, if_neg hx]
      by_cases hp : placed_pixels.get
          ((pixel.y + o.dy).toNat, (pixel.x + o.dx).toNat)
      · rw [if_pos hp, hp]
        simp
      · rw [if_neg hp, Bool.not_eq_true] at *
        rw [hp]
        simp

/-- Claim C10: `place_pixel_inner` returns `Err` and leaves image, mask and
edge queue untouched exactly when no offset yields an in-bounds unplaced
neighbor; otherwise it succeeds on the first such offset in offset order,
and the only changes are: that neighbor's mask bit is set, its image cell
receives the color, and it is pushed onto the back of the edge queue. -/
theorem C10_place_pixel_inner (dimy dimx : Nat) (pixel : Pixel)
    (color : Color) (image : PnmData) (edges : List Pixel)
    (placed_pixels : BitMap) (offsets : List Offset) :
    (offsets.find? (fun o => openNeighbor dimy dimx placed_pixels pixel o) =
        none →
      place_pixel_inner dimy dimx pixel color image edges placed_pixels
          offsets = (none, image, edges, placed_pixels)) ∧
    (∀ o, offsets.find?
        (fun o => openNeighbor dimy dimx placed_pixels pixel o) = some o →
      place_pixel_inner dimy dimx pixel color image edges placed_pixels
          offsets =
        (some ⟨pixel.x + o.dx, pixel.y + o.dy⟩,
          image.setPx ((pixel.y + o.dy).toNat, (pixel.x + o.dx).toNat) color,
          edges ++ [⟨pixel.x + o.dx, pixel.y + o.dy⟩],
          placed_pixels.set ((pixel.y + o.dy).toNat, (pixel.x + o.dx).toNat)
            true)) := by
  induction offsets with
  | nil =>
    constructor
    · intro _
      rfl
    · intro o h
      simp at h
  | cons head rest ih =>
    rw [place_pixel_inner_cons]
    by_cases hopen : openNeighbor dimy dimx placed_pixels pixel head
    · rw [if_pos hopen]
      constructor
      · intro hfind
        rw [List.find?_cons_of_pos _ hopen] at hfind
        cases hfind
      · intro o hfind
        rw [List.find?_cons_of_pos _ hopen] at hfind
        cases hfind
        rfl
    · rw [if_neg hopen]
      constructor
      · intro hfind
        rw [List.find?_cons_of_neg _ hopen] at hfind
        exact ih.1 hfind
      · intro o hfind
        rw [List.find?_cons_of_neg _ hopen] at hfind
        exact ih.2 o hfind

/-- Closed witness for `C10_place_pixel_inner`: a 2 × 2 image with an empty
mask, anchor `(0, 0)`, single offset `(dx, dy) = (1, 0)`; the placement
succeeds at `(1, 0)` with exactly the three described changes. -/
theorem C10_place_pixel_inner_witness :
    place_pixel_inner 2 2 ⟨0, 0⟩ (from_3 1 0 0)
        ⟨2, 2, 255, 3, List.replicate 4 (default : Color)⟩ [⟨0, 0⟩]
        (BitMap.new 2 2) [⟨1, 0⟩] =
      (some ⟨1, 0⟩,
        PnmData.setPx ⟨2, 2, 255, 3, List.replicate 4 (default : Color)⟩
          (0, 1) (from_3 1 0 0),
        [⟨0, 0⟩] ++ [⟨1, 0⟩],
        (BitMap.new 2 2).set (0, 1) true) :=
  (C10_place_pixel_inner 2 2 ⟨0, 0⟩ (from_3 1 0 0)
    ⟨2, 2, 255, 3, List.replicate 4 (default : Color)⟩ [⟨0, 0⟩]
    (BitMap.new 2 2) [⟨1, 0⟩]).2 ⟨1, 0⟩ (by decide)

/-- Claim C6: after `validate_inner_edges`, every remaining frontier entry
is marked placed, has an in-bounds unplaced neighbor under the offsets, and
(provided the queue had no duplicates before — the push discipline of
`place_pixel_inner` and seeding maintains this, see the generator invariant)
no pixel appears twice. -/
theorem C6_validate_inner_edges (dimy dimx : Nat) (edges : List Pixel)
    (placed_pixels : BitMap) (offsets : List Offset) :
    (∀ p ∈ validate_inner_edges dimy dimx edges placed_pixels offsets,
        placed_pixels.get (p.y.toNat, p.x.toNat) = true ∧
          (offsets.any fun o =>
            openNeighbor dimy dimx placed_pixels p o) = true) ∧
    (edges.Nodup →
      (validate_inner_edges dimy dimx edges placed_pixels offsets).Nodup) := by
  constructor
  · intro p hp
    have h := List.mem_filter.mp hp
    have h2 := h.2
    simp only [Bool.and_eq_true] at h2
    exact h2
  · intro hnd
    exact hnd.filter _

/-- Closed witness for `C6_validate_inner_edges` on a concrete state: a
2 × 2 mask with only `(0, 0)` placed, frontier `[(0, 0)]`, orthogonal-ish
offsets. -/
theorem C6_validate_inner_edges_witness :
    (∀ p ∈ validate_inner_edges 2 2 [⟨0, 0⟩] ((BitMap.new 2 2).set (0, 0) true)
          [⟨1, 0⟩, ⟨0, 1⟩],
        ((BitMap.new 2 2).set (0, 0) true).get (p.y.toNat, p.x.toNat) = true ∧
          ([⟨1, 0⟩, ⟨0, 1⟩].any fun o =>
            openNeighbor 2 2 ((BitMap.new 2 2).set (0, 0) true) p o) = true) ∧
    (([⟨0, 0⟩] : List Pixel).Nodup →
      (validate_inner_edges 2 2 [⟨0, 0⟩] ((BitMap.new 2 2).set (0, 0) true)
          [⟨1, 0⟩, ⟨0, 1⟩]).Nodup) :=
  C6_validate_inner_edges 2 2 [⟨0, 0⟩] ((BitMap.new 2 2).set (0, 0) true)
    [⟨1, 0⟩, ⟨0, 1⟩]

/-- One frontier-edge step of the best-fit scan (`generate.rs` lines
195-213, identically the worker loop lines 300-318): read the edge pixel
and its image color, then update each per-candidate best in
`best_places.iter_mut().zip(&*colors)` fashion. -/
def scanEdgeStep (image : PnmData) (edges : List Pixel) (colors : List Color)
    (bests : List (Option (Pixel × Channel))) (edge : Nat) :
    List (Option (Pixel × Channel)) :=
  let pixel := edges.getD edge default
  let color := image.getPx (pixel.y.toNat, pixel.x.toNat)
  List.zipWith
    (fun currentBest newColor =>
      bestUpdate currentBest pixel (fitness color newColor))
    bests colors

/-- Scan of the index range `[lo, hi)` of the frontier (the single worker
uses `[0, edges.len())`, pool workers their received chunk). -/
def scanEdges (image : PnmData) (edges : List Pixel) (colors : List Color)
    (lo hi : Nat) (bests : List (Option (Pixel × Channel))) :
    List (Option (Pixel × Channel)) :=
  (List.range' lo (hi - lo)).foldl (scanEdgeStep image edges colors) bests

/-- The single-worker path (`generate.rs` lines 169, 195-213):
`best_places = vec![None; colorcount]` then the full scan. -/
def singleBests (image : PnmData) (edges : List Pixel) (colors : List Color) :
    List (Option (Pixel × Channel)) :=
  scanEdges image edges colors 0 edges.length (List.replicate colors.length none)

/-- One pool worker's scan of its chunk (`generate.rs` lines 291-318). -/
def workerBests (image : PnmData) (edges : List Pixel) (colors : List Color)
    (lo hi : Nat) : List (Option (Pixel × Channel)) :=
  scanEdges image edges colors lo hi (List.replicate colors.length none)

/-- The chunk sent to worker `w` (`generate.rs` lines 353-364):
`step = edgecount / workers`, the last worker absorbs the remainder. -/
def chunkRange (workers step edgecount w : Nat) : Nat × Nat :=
  if w = workers - 1 then (w * step, edgecount) else (w * step, (w + 1) * step)

/-- The supervisor gather-and-reduce (`generate.rs` lines 330, 378-396),
with the worker results received in worker-index order (one legal arrival
order of the `mpsc` channel). -/
def multiBests (image : PnmData) (edges : List Pixel) (colors : List Color)
    (workers : Nat) (maxfitness : Option Channel) :
    List (Option (Pixel × Channel)) :=
  let edgecount := edges.length
  let step := edgecount / workers
  (List.range workers).foldl
    (fun bests w =>
      let r := chunkRange workers step edgecount w
      List.zipWith (reduceOne maxfitness) bests
        (workerBests image edges colors r.1 r.2))
    (List.replicate colors.length none)

/-- `scanEdges` preserves the accumulator length when it starts at the
candidate count. -/
theorem scanEdges_length (image : PnmData) (edges : List Pixel)
    (colors : List Color) (lo hi : Nat)
    (bests : List (Option (Pixel × Channel)))
    (h : bests.length = colors.length) :
    (scanEdges image edges colors lo hi bests).length = colors.length := by
  unfold scanEdges
  generalize List.range' lo (hi - lo) = idxs
  induction idxs generalizing bests with
  | nil => exact h
  | cons e rest ih =>
    rw [List.foldl_cons]
    apply ih
    unfold scanEdgeStep
    simp [List.length_zipWith, h]

/-- Per-candidate view of `scanEdges`: candidate `j` sees the fold of
`bestUpdate` along the scanned indices. -/
theorem scanEdges_getElem (image : PnmData) (edges : List Pixel)
    (colors : List Color) (idxs : List Nat)
    (bests : List (Option (Pixel × Channel)))
    (h : bests.length = colors.length) (j : Nat) (hj : j < colors.length) :
    (idxs.foldl (scanEdgeStep image edges colors) bests).getD j none =
      idxs.foldl
        (fun best e =>
          bestUpdate best (edges.getD e default)
            (fitness
              (image.getPx ((edges.getD e default).y.toNat,
                (edges.getD e default).x.toNat))
              (colors.getD j default)))
        (bests.getD j none) := by
  induction idxs generalizing bests with
  | nil => rfl
  | cons e rest ih =>
    rw [List.foldl_cons, List.foldl_cons]
    have hlen : (scanEdgeStep image edges colors bests e).length =
        colors.length := by
      unfold scanEdgeStep
      simp [List.length_zipWith, h]
    rw [ih (scanEdgeStep image edges colors bests e) hlen]
    congr 1
    unfold scanEdgeStep
    simp only
    rw [List.getD_eq_getElem?_getD, List.getElem?_zipWith]
    have hb : bests[j]? = some (bests.getD j none) := by
      rw [List.getD_eq_getElem?_getD]
      cases hcase : bests[j]? with
      | none =>
        rw [List.getElem?_eq_none_iff] at hcase
        omega
      | some v => rfl
    have hcj : colors[j]? = some (colors.getD j default) := by
      rw [List.getD_eq_getElem?_getD]
      cases hcase : colors[j]? with
      | none =>
        rw [List.getElem?_eq_none_iff] at hcase
        omega
      | some v => rfl
    rw [hb, hcj]
    rfl

/-- Option-valued running minimum: absorb one fitness value. -/
def ominStep (acc : Option Channel) (f : Channel) : Option Channel :=
  match acc with
  | none => some f
  | some a => some (min a f)

/-- Option-valued minimum of a list of fitness values. -/
def ominList (l : List Channel) : Option Channel := l.foldl ominStep none

/-- Combine two option-valued minima (`none` = no value seen). -/
def ocomb (a b : Option Channel) : Option Channel :=
  match b with
  | none => a
  | some f => ominStep a f

theorem ocomb_none_left (b : Option Channel) : ocomb none b = b := by
  cases b <;> rfl

theorem ocomb_assoc (a b c : Option Channel) :
    ocomb (ocomb a b) c = ocomb a (ocomb b c) := by
  cases a <;> cases b <;> cases c <;>
    simp [ocomb, ominStep, min_assoc]

/-- The fitness component of a `bestUpdate` is the running minimum. -/
theorem bestUpdate_snd (b : Option (Pixel × Channel)) (p : Pixel)
    (f : Channel) :
    (bestUpdate b p f).map Prod.snd = ominStep (b.map Prod.snd) f := by
  cases b with
  | none => rfl
  | some pr =>
    rcases pr with ⟨q, cf⟩
    show (if cf < f then some (q, cf) else some (p, f)).map Prod.snd = _
    by_cases h : cf < f
    · rw [if_pos h]
      show some cf = some (min cf f)
      rw [min_eq_left (le_of_lt h)]
    · rw [if_neg h]
      show some f = some (min cf f)
      rw [min_eq_right (le_of_not_lt h)]

/-- The fitness component of a cap-free `reduceOne` combines the minima. -/
theorem reduceOne_snd (b w : Option (Pixel × Channel)) :
    (reduceOne none b w).map Prod.snd =
      ocomb (b.map Prod.snd) (w.map Prod.snd) := by
  cases b with
  | none =>
    cases w with
    | none => rfl
    | some pr =>
      rcases pr with ⟨p, f⟩
      rfl
  | some pr =>
    rcases pr with ⟨bp, bf⟩
    cases w with
    | none => rfl
    | some pr' =>
      rcases pr' with ⟨wp, wf⟩
      show (if wf < bf then some (wp, wf) else some (bp, bf)).map Prod.snd =
        some (min bf wf)
      by_cases h : wf < bf
      · rw [if_pos h]
        show some wf = some (min bf wf)
        rw [min_eq_right (le_of_lt h)]
      · rw [if_neg h]
        show some bf = some (min bf wf)
        rw [min_eq_left (le_of_not_lt h)]

/-- Shift lemma: a fold of `ominStep` from any accumulator is the
combination with the fold from `none`. -/
theorem foldl_ominStep_shift (l : List Channel) :
    ∀ a, l.foldl ominStep a = ocomb a (ominList l) := by
  induction l with
  | nil =>
    intro a
    rfl
  | cons f rest ih =>
    intro a
    rw [List.foldl_cons, ih]
    show ocomb (ocomb a (some f)) (ominList rest) = _
    rw [ocomb_assoc]
    unfold ominList
    rw [List.foldl_cons, ih (ominStep none f)]
    rfl

theorem ominList_append (l1 l2 : List Channel) :
    ominList (l1 ++ l2) = ocomb (ominList l1) (ominList l2) := by
  unfold ominList
  rw [List.foldl_append]
  rw [foldl_ominStep_shift]
  rfl

/-- Shift lemma for `ocomb` folds. -/
theorem foldl_ocomb_shift (l : List (Option Channel)) :
    ∀ a, l.foldl ocomb a = ocomb a (l.foldl ocomb none) := by
  induction l with
  | nil =>
    intro a
    rfl
  | cons b rest ih =>
    intro a
    rw [List.foldl_cons, ih, List.foldl_cons, ih (ocomb none b)]
    rw [ocomb_none_left, ocomb_assoc]

/-- The minimum of a concatenation is the `ocomb`-fold of the chunk
minima. -/
theorem ominList_flatten (ls : List (List Channel)) :
    ominList ls.flatten = (ls.map ominList).foldl ocomb none := by
  induction ls with
  | nil => rfl
  | cons l rest ih =>
    rw [List.flatten_cons, ominList_append, ih, List.map_cons,
      List.foldl_cons, ocomb_none_left]
    exact (foldl_ocomb_shift (List.map ominList rest) (ominList l)).symm

/-- The fitness a scan computes at frontier index `e` for candidate `c`. -/
def fitAt (image : PnmData) (edges : List Pixel) (c : Color) (e : Nat) :
    Channel :=
  fitness
    (image.getPx ((edges.getD e default).y.toNat, (edges.getD e default).x.toNat))
    c

/-- The fitness component of a per-candidate scan fold is the running
minimum of the scanned fitness values. -/
theorem scanFold_snd (image : PnmData) (edges : List Pixel) (c : Color)
    (idxs : List Nat) :
    ∀ b : Option (Pixel × Channel),
      ((idxs.foldl
          (fun best e =>
            bestUpdate best (edges.getD e default) (fitAt image edges c e))
          b).map Prod.snd) =
        (idxs.map (fitAt image edges c)).foldl ominStep (b.map Prod.snd) := by
  induction idxs with
  | nil =>
    intro b
    rfl
  | cons e rest ih =>
    intro b
    rw [List.foldl_cons, List.map_cons, List.foldl_cons, ih, bestUpdate_snd]

/-- The chunks `[w*step, (w+1)*step)` (last: `[..., edgecount)`) sent by the
supervisor cover `[0, edgecount)` contiguously. -/
theorem chunks_cover (workers n : Nat) (hw : 1 ≤ workers) :
    ((List.range workers).map fun w =>
        List.range' (chunkRange workers (n / workers) n w).1
          ((chunkRange workers (n / workers) n w).2 -
            (chunkRange workers (n / workers) n w).1)).flatten =
      List.range' 0 n := by
  have hranges : ∀ k, k ≤ workers - 1 →
      ((List.range k).map fun w =>
        List.range' (w * (n / workers)) (n / workers)).flatten =
      List.range' 0 (k * (n / workers)) := by
    intro k hk
    induction k with
    | zero => simp
    | succ k ihk =>
      rw [List.range_succ, List.map_append, List.flatten_append,
        ihk (by omega)]
      simp only [List.map_cons, List.map_nil, List.flatten_cons,
        List.flatten_nil, List.append_nil]
      have h0 : List.range' (k * (n / workers)) (n / workers) =
          List.range' (0 + k * (n / workers)) (n / workers) := by
        rw [Nat.zero_add]
      rw [h0, List.range'_append_1]
      congr 1
      ring
  rcases Nat.exists_eq_add_of_le hw with ⟨m, hm⟩
  have hsplit : List.range workers = List.range (workers - 1) ++ [workers - 1] := by
    have h1 : workers = (workers - 1) + 1 := by omega
    rw [h1, List.range_succ]
    congr 1
  rw [hsplit, List.map_append, List.flatten_append]
  have hfirst : (List.range (workers - 1)).map (fun w =>
        List.range' (chunkRange workers (n / workers) n w).1
          ((chunkRange workers (n / workers) n w).2 -
            (chunkRange workers (n / workers) n w).1)) =
      (List.range (workers - 1)).map fun w =>
        List.range' (w * (n / workers)) (n / workers) := by
    apply List.map_congr_left
    intro w hwmem
    have hwlt : w < workers - 1 := List.mem_range.mp hwmem
    unfold chunkRange
    rw [if_neg (by omega)]
    simp only
    congr 1
    have h2 : (w + 1) * (n / workers) = w * (n / workers) + n / workers := by
      ring
    rw [h2, Nat.add_sub_cancel_left]
  rw [hfirst, hranges (workers - 1) (le_refl _)]
  simp only [List.map_cons, List.map_nil, List.flatten_cons, List.flatten_nil,
    List.append_nil]
  unfold chunkRange
  rw [if_pos rfl]
  simp only
  have hle : (workers - 1) * (n / workers) ≤ n := by
    have h3 : (workers - 1) * (n / workers) ≤ workers * (n / workers) :=
      Nat.mul_le_mul_right _ (by omega)
    have h4 : workers * (n / workers) ≤ n := by
      rw [Nat.mul_comm]
      exact Nat.div_mul_le_self n workers
    omega
  have happ := List.range'_append_1 0 ((workers - 1) * (n / workers))
    (n - (workers - 1) * (n / workers))
  rw [Nat.zero_add] at happ
  rw [happ]
  congr 1
  omega

/-- `getD` of a `replicate none` accumulator. -/
theorem getD_replicate_none (n j : Nat) :
    (List.replicate n (none : Option (Pixel × Channel))).getD j none = none := by
  rw [List.getD_eq_getElem?_getD, List.getElem?_replicate]
  by_cases h : j < n
  · rw [if_pos h]
    rfl
  · rw [if_neg h]
    rfl

/-- The supervisor reduction fold preserves the candidate count. -/
theorem reduceFold_length (image : PnmData) (edges : List Pixel)
    (colors : List Color) (mf : Option Channel) (chunk : Nat → Nat × Nat)
    (ws : List Nat) :
    ∀ acc : List (Option (Pixel × Channel)), acc.length = colors.length →
      (ws.foldl
        (fun bests w =>
          List.zipWith (reduceOne mf) bests
            (workerBests image edges colors (chunk w).1 (chunk w).2))
        acc).length = colors.length := by
  induction ws with
  | nil =>
    intro acc h
    exact h
  | cons w rest ih =>
    intro acc h
    rw [List.foldl_cons]
    apply ih
    rw [List.length_zipWith, h]
    unfold workerBests
    rw [scanEdges_length _ _ _ _ _ _ (List.length_replicate _ _)]
    exact Nat.min_self _

/-- Per-candidate view of the supervisor reduction fold. -/
theorem reduceFold_getD (image : PnmData) (edges : List Pixel)
    (colors : List Color) (mf : Option Channel) (chunk : Nat → Nat × Nat)
    (ws : List Nat) (j : Nat) (hj : j < colors.length) :
    ∀ acc : List (Option (Pixel × Channel)), acc.length = colors.length →
      (ws.foldl
        (fun bests w =>
          List.zipWith (reduceOne mf) bests
            (workerBests image edges colors (chunk w).1 (chunk w).2))
        acc).getD j none =
      ws.foldl
        (fun b w =>
          reduceOne mf b
            ((workerBests image edges colors (chunk w).1 (chunk w).2).getD j
              none))
        (acc.getD j none) := by
  induction ws with
  | nil =>
    intro acc _
    rfl
  | cons w rest ih =>
    intro acc h
    rw [List.foldl_cons, List.foldl_cons]
    have hwlen : (workerBests image edges colors (chunk w).1 (chunk w).2).length =
        colors.length := by
      unfold workerBests
      exact scanEdges_length _ _ _ _ _ _ (List.length_replicate _ _)
    have hzlen : (List.zipWith (reduceOne mf) acc
        (workerBests image edges colors (chunk w).1 (chunk w).2)).length =
        colors.length := by
      rw [List.length_zipWith, h, hwlen]
      exact Nat.min_self _
    rw [ih _ hzlen]
    congr 1
    rw [List.getD_eq_getElem?_getD, List.getElem?_zipWith]
    have ha : acc[j]? = some (acc.getD j none) := by
      rw [List.getD_eq_getElem?_getD]
      cases hcase : acc[j]? with
      | none =>
        rw [List.getElem?_eq_none_iff] at hcase
        omega
      | some v => rfl
    have hw : (workerBests image edges colors (chunk w).1 (chunk w).2)[j]? =
        some ((workerBests image edges colors (chunk w).1 (chunk w).2).getD j
          none) := by
      rw [List.getD_eq_getElem?_getD]
      cases hcase : (workerBests image edges colors (chunk w).1 (chunk w).2)[j]? with
      | none =>
        rw [List.getElem?_eq_none_iff] at hcase
        omega
      | some v => rfl
    rw [ha, hw]
    rfl

/-- Candidate `j` of one worker's result: the running minimum over the
chunk's fitness values. -/
theorem workerBests_snd (image : PnmData) (edges : List Pixel)
    (colors : List Color) (lo hi : Nat) (j : Nat) (hj : j < colors.length) :
    ((workerBests image edges colors lo hi).getD j none).map Prod.snd =
      ominList ((List.range' lo (hi - lo)).map
        (fitAt image edges (colors.getD j default))) := by
  unfold workerBests scanEdges
  rw [scanEdges_getElem image edges colors _ _ (List.length_replicate _ _) j hj]
  rw [getD_replicate_none]
  have hshow : (List.range' lo (hi - lo)).foldl
      (fun best e =>
        bestUpdate best (edges.getD e default)
          (fitness
            (image.getPx ((edges.getD e default).y.toNat,
              (edges.getD e default).x.toNat))
            (colors.getD j default)))
      none =
    (List.range' lo (hi - lo)).foldl
      (fun best e =>
        bestUpdate best (edges.getD e default)
          (fitAt image edges (colors.getD j default) e))
      none := rfl
  rw [hshow, scanFold_snd]
  rfl

/-- A cap-free option fold of `reduceOne`, viewed on fitness values. -/
theorem reduceFoldPoint_snd (wb : Nat → Option (Pixel × Channel))
    (ws : List Nat) :
    ∀ b0 : Option (Pixel × Channel),
      (ws.foldl (fun b w => reduceOne none b (wb w)) b0).map Prod.snd =
        ws.foldl (fun a w => ocomb a ((wb w).map Prod.snd))
          (b0.map Prod.snd) := by
  induction ws with
  | nil =>
    intro b0
    rfl
  | cons w rest ih =>
    intro b0
    rw [List.foldl_cons, List.foldl_cons, ih, reduceOne_snd]

/-- Congruence for folds whose step functions agree on list members. -/
theorem foldl_congr_fun {α β : Type} (l : List β) (f g : α → β → α) :
    ∀ a, (∀ x w, w ∈ l → f x w = g x w) → l.foldl f a = l.foldl g a := by
  induction l with
  | nil =>
    intro a _
    rfl
  | cons w rest ih =>
    intro a h
    rw [List.foldl_cons, List.foldl_cons, h a w (List.mem_cons_self _ _)]
    exact ih _ (fun x v hv => h x v (List.mem_cons_of_mem _ hv))

/-- Candidate `j` of the cap-free supervisor reduction: the minimum fitness
over the whole frontier. -/
theorem multiBests_snd (image : PnmData) (edges : List Pixel)
    (colors : List Color) (workers : Nat) (hw : 1 ≤ workers) (j : Nat)
    (hj : j < colors.length) :
    ((multiBests image edges colors workers none).getD j none).map Prod.snd =
      ominList ((List.range' 0 edges.length).map
        (fitAt image edges (colors.getD j default))) := by
  unfold multiBests
  simp only
  rw [reduceFold_getD image edges colors none
    (chunkRange workers (edges.length / workers) edges.length)
    (List.range workers) j hj _ (List.length_replicate _ _)]
  rw [getD_replicate_none]
  rw [reduceFoldPoint_snd]
  have hpoint : (List.range workers).foldl
      (fun a w => ocomb a
        (((workerBests image edges colors
            (chunkRange workers (edges.length / workers) edges.length w).1
            (chunkRange workers (edges.length / workers) edges.length w).2).getD
          j none).map Prod.snd))
      ((none : Option (Pixel × Channel)).map Prod.snd) =
    (List.range workers).foldl
      (fun a w => ocomb a
        (ominList ((List.range'
            (chunkRange workers (edges.length / workers) edges.length w).1
            ((chunkRange workers (edges.length / workers) edges.length w).2 -
              (chunkRange workers (edges.length / workers) edges.length w).1)).map
          (fitAt image edges (colors.getD j default)))))
      none := by
    apply foldl_congr_fun
    intro a w _
    rw [workerBests_snd image edges colors _ _ j hj]
  rw [hpoint]
  rw [← List.foldl_map
    (fun w => ominList ((List.range'
      (chunkRange workers (edges.length / workers) edges.length w).1
      ((chunkRange workers (edges.length / workers) edges.length w).2 -
        (chunkRange workers (edges.length / workers) edges.length w).1)).map
      (fitAt image edges (colors.getD j default)))) ocomb]
  have hmm : (List.range workers).map
      (fun w => ominList ((List.range'
        (chunkRange workers (edges.length / workers) edges.length w).1
        ((chunkRange workers (edges.length / workers) edges.length w).2 -
          (chunkRange workers (edges.length / workers) edges.length w).1)).map
        (fitAt image edges (colors.getD j default)))) =
    ((List.range workers).map
      (fun w => (List.range'
        (chunkRange workers (edges.length / workers) edges.length w).1
        ((chunkRange workers (edges.length / workers) edges.length w).2 -
          (chunkRange workers (edges.length / workers) edges.length w).1)).map
        (fitAt image edges (colors.getD j default)))).map ominList := by
    rw [List.map_map]
    rfl
  rw [hmm, ← ominList_flatten]
  have hmf : ((List.range workers).map
      (fun w => (List.range'
        (chunkRange workers (edges.length / workers) edges.length w).1
        ((chunkRange workers (edges.length / workers) edges.length w).2 -
          (chunkRange workers (edges.length / workers) edges.length w).1)).map
        (fitAt image edges (colors.getD j default)))) =
    (List.map (List.map (fitAt image edges (colors.getD j default)))
      ((List.range workers).map
        (fun w => List.range'
          (chunkRange workers (edges.length / workers) edges.length w).1
          ((chunkRange workers (edges.length / workers) edges.length w).2 -
            (chunkRange workers (edges.length / workers) edges.length w).1)))) := by
    rw [List.map_map]
    rfl
  rw [hmf, ← List.map_flatten, chunks_cover workers edges.length hw]

/-- Candidate `j` of the single-worker scan: the same minimum fitness. -/
theorem singleBests_snd (image : PnmData) (edges : List Pixel)
    (colors : List Color) (j : Nat) (hj : j < colors.length) :
    ((singleBests image edges colors).getD j none).map Prod.snd =
      ominList ((List.range' 0 edges.length).map
        (fitAt image edges (colors.getD j default))) := by
  have h := workerBests_snd image edges colors 0 edges.length j hj
  rw [Nat.sub_zero] at h
  exact h

/-- Length of the reduced result. -/
theorem multiBests_length (image : PnmData) (edges : List Pixel)
    (colors : List Color) (workers : Nat) (mf : Option Channel) :
    (multiBests image edges colors workers mf).length = colors.length := by
  unfold multiBests
  exact reduceFold_length image edges colors mf _ _ _
    (List.length_replicate _ _)

/-- Length of the single-worker result. -/
theorem singleBests_length (image : PnmData) (edges : List Pixel)
    (colors : List Color) :
    (singleBests image edges colors).length = colors.length := by
  unfold singleBests
  exact scanEdges_length _ _ _ _ _ _ (List.length_replicate _ _)


/-- Claim C1 as stated — the multi-worker reduction equals the
single-threaded scan "for every setting of max_fitness" — is false: on a
1 × 1 snapshot with one frontier pixel of fitness 1 and
`max_fitness = Some 1/2`, the single-threaded scan (which never consults
`max_fitness`) selects the pixel, while the worker reduction (which checks
the cap before replacing a `None` best) yields nothing. -/
theorem C1_counterexample :
    multiBests ⟨1, 1, 255, 3, [from_3 1 0 0]⟩ [⟨0, 0⟩] [from_3 0 0 0] 2
        (some (1 / 2)) = [none] ∧
      singleBests ⟨1, 1, 255, 3, [from_3 1 0 0]⟩ [⟨0, 0⟩] [from_3 0 0 0] =
        [some (⟨0, 0⟩, 1)] ∧
      ([none] : List (Option (Pixel × Channel))) ≠ [some (⟨0, 0⟩, 1)] := by
  refine ⟨?_, ?_, by simp⟩
  · norm_num [multiBests, workerBests, scanEdges, chunkRange, scanEdgeStep,
      reduceOne, bestUpdate, fitness, Color.sub, Color.mul, Color.laneSum,
      from_3, PnmData.getPx, List.range_succ, List.range']
  · norm_num [singleBests, scanEdges, scanEdgeStep, bestUpdate, fitness,
      Color.sub, Color.mul, Color.laneSum, from_3, PnmData.getPx,
      List.range']

/-- Claim C1, amended: with `max_fitness = None` the worker partition,
per-chunk scan, and in-order elementwise reduction agree with the
single-threaded scan on the best fitness value of every candidate (both are
the minimum fitness over the whole frontier, and both are `None` exactly
when the frontier is empty); the selected pixels may differ when several
frontier pixels tie for the minimum, and with `max_fitness = Some t` the
reduction additionally refuses results whose fitness reaches the cap while
the single-threaded path ignores the cap. -/
theorem C1_amended (image : PnmData) (edges : List Pixel)
    (colors : List Color) (workers : Nat) (hw : 1 ≤ workers) :
    (multiBests image edges colors workers none).map (Option.map Prod.snd) =
      (singleBests image edges colors).map (Option.map Prod.snd) := by
  apply List.ext_getElem?
  intro i
  rw [List.getElem?_map, List.getElem?_map]
  by_cases hi : i < colors.length
  · have h1 : (multiBests image edges colors workers none)[i]? =
        some ((multiBests image edges colors workers none).getD i none) := by
      rw [List.getD_eq_getElem?_getD]
      cases hcase : (multiBests image edges colors workers none)[i]? with
      | none =>
        rw [List.getElem?_eq_none_iff, multiBests_length] at hcase
        omega
      | some v => rfl
    have h2 : (singleBests image edges colors)[i]? =
        some ((singleBests image edges colors).getD i none) := by
      rw [List.getD_eq_getElem?_getD]
      cases hcase : (singleBests image edges colors)[i]? with
      | none =>
        rw [List.getElem?_eq_none_iff, singleBests_length] at hcase
        omega
      | some v => rfl
    rw [h1, h2]
    show some (((multiBests image edges colors workers none).getD i none).map
        Prod.snd) =
      some (((singleBests image edges colors).getD i none).map Prod.snd)
    rw [multiBests_snd image edges colors workers hw i hi,
      singleBests_snd image edges colors i hi]
  · have h1 : (multiBests image edges colors workers none)[i]? = none := by
      rw [List.getElem?_eq_none_iff, multiBests_length]
      omega
    have h2 : (singleBests image edges colors)[i]? = none := by
      rw [List.getElem?_eq_none_iff, singleBests_length]
      omega
    rw [h1, h2]

/-- Closed witness for `C1_amended`: a 2 × 1 snapshot, two frontier pixels,
one candidate, three workers. -/
theorem C1_amended_witness :
    (multiBests ⟨2, 1, 255, 3, [from_3 1 0 0, from_3 0 1 0]⟩
        [⟨0, 0⟩, ⟨1, 0⟩] [from_3 0 0 0] 3 none).map (Option.map Prod.snd) =
      (singleBests ⟨2, 1, 255, 3, [from_3 1 0 0, from_3 0 1 0]⟩
        [⟨0, 0⟩, ⟨1, 0⟩] [from_3 0 0 0]).map (Option.map Prod.snd) :=
  C1_amended ⟨2, 1, 255, 3, [from_3 1 0 0, from_3 0 1 0]⟩
    [⟨0, 0⟩, ⟨1, 0⟩] [from_3 0 0 0] 3 (by omega)

/-- A capped `reduceOne` preserves "any stored fitness is below the cap". -/
theorem reduceOne_cap (t : Channel) (b w : Option (Pixel × Channel))
    (hb : ∀ p f, b = some (p, f) → f < t) :
    ∀ p f, reduceOne (some t) b w = some (p, f) → f < t := by
  intro p f h
  cases w with
  | none =>
    cases b with
    | none =>
      cases h
    | some pr =>
      rcases pr with ⟨bp, bf⟩
      have hbb : (some (bp, bf) : Option (Pixel × Channel)) = some (p, f) := h
      exact hb p f hbb
  | some pr =>
    rcases pr with ⟨wp, wf⟩
    cases b with
    | none =>
      change (if wf < t then some (wp, wf) else none) = some (p, f) at h
      by_cases hc : wf < t
      · rw [if_pos hc] at h
        cases h
        exact hc
      · rw [if_neg hc] at h
        cases h
    | some pr' =>
      rcases pr' with ⟨bp, bf⟩
      have hbf : bf < t := hb bp bf rfl
      change (if wf < bf then some (wp, wf) else some (bp, bf)) = some (p, f)
        at h
      by_cases hc : wf < bf
      · rw [if_pos hc] at h
        cases h
        exact lt_trans hc hbf
      · rw [if_neg hc] at h
        cases h
        exact hbf

/-- Claim C3 as stated — with `max_fitness = Some t`, a pair with fitness
`≤ t` is eligible to replace a `None` best — is false at equality: a worker
pair whose fitness equals the cap is rejected (the check is strict `<`),
and the single-worker path (lines 202-212) contains no cap check at all. -/
theorem C3_counterexample :
    reduceOne (some 1) none (some (⟨0, 0⟩, 1)) = none := by
  show (if (1 : Channel) < 1 then some ((⟨0, 0⟩ : Pixel), (1 : Channel))
      else none) = none
  rw [if_neg (lt_irrefl (1 : Channel))]

/-- Claim C3, amended: the cap is enforced only in the multi-worker
reduction and with strict inequality: a worker pair replaces a `None` best
iff its fitness is strictly below `t` (fitness `≥ t`, including equality,
never replaces a `None` best), the cap is not re-checked once a best is
stored, and consequently every stored reduced best has fitness `< t`; the
single-worker scan path does not consult `max_fitness` at all. -/
theorem C3_amended (image : PnmData) (edges : List Pixel)
    (colors : List Color) (workers : Nat) (t : Channel) :
    (∀ p f, reduceOne (some t) none (some (p, f)) =
        if f < t then some (p, f) else none) ∧
    (∀ j p f, (multiBests image edges colors workers (some t)).getD j none =
        some (p, f) → f < t) := by
  constructor
  · intro p f
    rfl
  · intro j p f hj
    by_cases hjlen : j < colors.length
    · rw [multiBests] at hj
      simp only at hj
      rw [reduceFold_getD image edges colors (some t)
        (chunkRange workers (edges.length / workers) edges.length)
        (List.range workers) j hjlen _ (List.length_replicate _ _)] at hj
      rw [getD_replicate_none] at hj
      revert hj
      generalize List.range workers = ws
      have hgen : ∀ (b0 : Option (Pixel × Channel)),
          (∀ q g, b0 = some (q, g) → g < t) →
          ∀ q g, (ws.foldl
            (fun b w => reduceOne (some t) b
              ((workerBests image edges colors
                (chunkRange workers (edges.length / workers) edges.length w).1
                (chunkRange workers (edges.length / workers) edges.length
                  w).2).getD j none))
            b0) = some (q, g) → g < t := by
        induction ws with
        | nil =>
          intro b0 hb q g h
          exact hb q g h
        | cons w rest ih =>
          intro b0 hb q g h
          rw [List.foldl_cons] at h
          exact ih _ (reduceOne_cap t b0 _ hb) q g h
      intro hj
      exact hgen none (by intro q g hcontra; cases hcontra) p f hj
    · exfalso
      have hnone : (multiBests image edges colors workers (some t)).getD j
          none = none := by
        rw [List.getD_eq_getElem?_getD, List.getElem?_eq_none_iff.mpr]
        · rfl
        · rw [multiBests_length]
          omega
      rw [hnone] at hj
      cases hj

/-- Closed witness for `C3_amended`: a 1 × 1 snapshot, cap `t = 2`, one
worker. -/
theorem C3_amended_witness :
    (∀ p f, reduceOne (some (2 : Channel)) none (some (p, f)) =
        if f < 2 then some (p, f) else none) ∧
    (∀ j p f, (multiBests ⟨1, 1, 255, 3, [from_3 1 0 0]⟩ [⟨0, 0⟩]
        [from_3 0 0 0] 1 (some 2)).getD j none = some (p, f) → f < 2) :=
  C3_amended ⟨1, 1, 255, 3, [from_3 1 0 0]⟩ [⟨0, 0⟩] [from_3 0 0 0] 1 2

/-- Result of the first (random-try) stage of `place_seeds_common`
(`generate.rs` lines 47-72): final image, mask, the pixels placed by this
stage (in placement order), the failure and success counters, and whether
`break 'outer` fired. -/
structure Stage1Result where
  image : PnmData
  placed_pixels : BitMap
  placed : List Pixel
  failures : Nat
  successes : Nat
  aborted : Bool

/-- Stage 1 of `place_seeds_common` (`generate.rs` lines 48-72): the outer
loop runs over the remaining seed count, the retry loop draws `(y, x)`
pairs; a draw hitting a placed pixel increments the single cumulative
`failures` counter and aborts everything at 4; a draw hitting a free pixel
receives a fresh color (`colors` indexed by the success count models
`color_generator.new_color(rng)`) and is recorded. The draw oracle `tries`
models the `rng.gen_range` pairs. -/
def seedStage1 (colors : Nat → Color) (image : PnmData)
    (placed_pixels : BitMap) :
    List (Nat × Nat) → Nat → Nat → Nat → Stage1Result
  | _, 0, failures, successes =>
    ⟨image, placed_pixels, [], failures, successes, false⟩
  | [], _ + 1, failures, successes =>
    ⟨image, placed_pixels, [], failures, successes, false⟩
  | (y, x) :: rest, n + 1, failures, successes =>
    if placed_pixels.get (y, x) then
      if failures + 1 ≥ 4 then
        ⟨image, placed_pixels, [], failures + 1, successes, true⟩
      else
        seedStage1 colors image placed_pixels rest (n + 1) (failures + 1)
          successes
    else
      let r := seedStage1 colors (image.setPx (y, x) (colors successes))
        (placed_pixels.set (y, x) true) rest n failures (successes + 1)
      ⟨r.image, r.placed_pixels, ⟨x, y⟩ :: r.placed, r.failures, r.successes,
        r.aborted⟩

/-- Result of the second (always-successful) stage. -/
structure Stage2Result where
  image : PnmData
  placed_pixels : BitMap
  placed : List Pixel
  successes : Nat

/-- Stage 2 of `place_seeds_common` (`generate.rs` lines 73-90): place a
color at every chosen empty cell unconditionally. -/
def seedStage2 (colors : Nat → Color) :
    List (Nat × Nat) → PnmData → BitMap → Nat → Stage2Result
  | [], image, placed_pixels, successes =>
    ⟨image, placed_pixels, [], successes⟩
  | (y, x) :: rest, image, placed_pixels, successes =>
    let r := seedStage2 colors rest (image.setPx (y, x) (colors successes))
      (placed_pixels.set (y, x) true) (successes + 1)
    ⟨r.image, r.placed_pixels, ⟨x, y⟩ :: r.placed, r.successes⟩

/-- Outcome of `place_seeds_common` as seen by its caller. -/
structure SeedOutcome where
  image : PnmData
  placed_pixels : BitMap
  placed : List Pixel

/-- `place_seeds_common` (`generate.rs` lines 45-92): run the random stage;
if it placed fewer than `count` seeds, enumerate the still-unplaced cells
with `for_each_false` and place the remainder on a sample of them
(`choose` models `all_empty.choose_multiple(rng, count - successes)`). -/
def place_seeds_common (count : Nat) (tries : List (Nat × Nat))
    (colors : Nat → Color)
    (choose : List (Nat × Nat) → Nat → List (Nat × Nat)) (image : PnmData)
    (placed_pixels : BitMap) : SeedOutcome :=
  let r1 := seedStage1 colors image placed_pixels tries count 0 0
  if r1.successes < count then
    let all_empty := r1.placed_pixels.forEachFalseList
    let r2 := seedStage2 colors (choose all_empty (count - r1.successes))
      r1.image r1.placed_pixels r1.successes
    ⟨r2.image, r2.placed_pixels, r1.placed ++ r2.placed⟩
  else
    ⟨r1.image, r1.placed_pixels, r1.placed⟩

/-- Modelled from the claim (claim C5 reads the failure counting as
per-seed): each seed is attempted with up to 4 random tries of its own —
a per-seed counter that resets on success — and only 4 consecutive failures
for a single seed abandon the random strategy. This is the claim-side
variant compared against the source-side `seedStage1`. -/
def seedStage1PerSeedClaim (colors : Nat → Color) (image : PnmData)
    (placed_pixels : BitMap) :
    List (Nat × Nat) → Nat → Nat → Nat → Stage1Result
  | _, 0, seedFailures, successes =>
    ⟨image, placed_pixels, [], seedFailures, successes, false⟩
  | [], _ + 1, seedFailures, successes =>
    ⟨image, placed_pixels, [], seedFailures, successes, false⟩
  | (y, x) :: rest, n + 1, seedFailures, successes =>
    if placed_pixels.get (y, x) then
      if seedFailures + 1 ≥ 4 then
        ⟨image, placed_pixels, [], seedFailures + 1, successes, true⟩
      else
        seedStage1PerSeedClaim colors image placed_pixels rest (n + 1)
          (seedFailures + 1) successes
    else
      let r := seedStage1PerSeedClaim colors
        (image.setPx (y, x) (colors successes))
        (placed_pixels.set (y, x) true) rest n 0 (successes + 1)
      ⟨r.image, r.placed_pixels, ⟨x, y⟩ :: r.placed, r.failures, r.successes,
        r.aborted⟩

/-- Bookkeeping facts about stage 1 of seeding: dimensions and
well-formedness are preserved, the success counter advances by the number
of placed pixels (at most the requested count), each placed pixel was free
and becomes set (raising `trueCount` accordingly), already-set bits stay
set, and the placed pixels are pairwise distinct. -/
theorem seedStage1_spec (colors : Nat → Color) :
    ∀ (tries : List (Nat × Nat)) (n failures successes : Nat)
      (image : PnmData) (mask : BitMap), mask.WF →
      (∀ t ∈ tries, t.1 < mask.height ∧ t.2 < mask.width) →
      (seedStage1 colors image mask tries n failures
          successes).placed_pixels.WF ∧
      (seedStage1 colors image mask tries n failures
          successes).placed_pixels.height = mask.height ∧
      (seedStage1 colors image mask tries n failures
          successes).placed_pixels.width = mask.width ∧
      (seedStage1 colors image mask tries n failures successes).successes =
        successes +
          (seedStage1 colors image mask tries n failures
            successes).placed.length ∧
      (seedStage1 colors image mask tries n failures
          successes).placed.length ≤ n ∧
      (seedStage1 colors image mask tries n failures
          successes).placed_pixels.trueCount =
        mask.trueCount +
          (seedStage1 colors image mask tries n failures
            successes).placed.length ∧
      (∀ r c, r < mask.height → c < mask.width → mask.get (r, c) = true →
        (seedStage1 colors image mask tries n failures
          successes).placed_pixels.get (r, c) = true) ∧
      (∀ p ∈ (seedStage1 colors image mask tries n failures
          successes).placed,
        0 ≤ p.x ∧ 0 ≤ p.y ∧ p.y.toNat < mask.height ∧
          p.x.toNat < mask.width ∧
          (seedStage1 colors image mask tries n failures
            successes).placed_pixels.get (p.y.toNat, p.x.toNat) = true ∧
          mask.get (p.y.toNat, p.x.toNat) = false) ∧
      (seedStage1 colors image mask tries n failures successes).placed.Nodup
      := by
  intro tries
  induction tries with
  | nil =>
    intro n failures successes image mask hwf _
    cases n with
    | zero =>
      refine ⟨hwf, rfl, rfl, by simp [seedStage1], by simp [seedStage1],
        by simp [seedStage1], ?_, ?_, by simp [seedStage1]⟩
      · intro r c _ _ h
        exact h
      · intro p hp
        simp [seedStage1] at hp
    | succ m =>
      refine ⟨hwf, rfl, rfl, by simp [seedStage1], by simp [seedStage1],
        by simp [seedStage1], ?_, ?_, by simp [seedStage1]⟩
      · intro r c _ _ h
        exact h
      · intro p hp
        simp [seedStage1] at hp
  | cons t rest ih =>
    intro n failures successes image mask hwf htries
    rcases t with ⟨y, x⟩
    have hhead := htries (y, x) (List.mem_cons_self _ _)
    have hrest : ∀ t ∈ rest, t.1 < mask.height ∧ t.2 < mask.width :=
      fun t ht => htries t (List.mem_cons_of_mem _ ht)
    cases n with
    | zero =>
      refine ⟨hwf, rfl, rfl, by simp [seedStage1], by simp [seedStage1],
        by simp [seedStage1], ?_, ?_, by simp [seedStage1]⟩
      · intro r c _ _ h
        exact h
      · intro p hp
        simp [seedStage1] at hp
    | succ m =>
      by_cases hget : mask.get (y, x)
      · by_cases habort : failures + 1 ≥ 4
        · have hunfold : seedStage1 colors image mask ((y, x) :: rest) (m + 1)
              failures successes =
            ⟨image, mask, [], failures + 1, successes, true⟩ := by
            simp [seedStage1, hget, habort]
          rw [hunfold]
          refine ⟨hwf, rfl, rfl, by simp, by simp, by simp, ?_, ?_, by simp⟩
          · intro r c _ _ h
            exact h
          · intro p hp
            simp at hp
        · have hunfold : seedStage1 colors image mask ((y, x) :: rest) (m + 1)
              failures successes =
            seedStage1 colors image mask rest (m + 1) (failures + 1)
              successes := by
            simp [seedStage1, hget, habort]
          rw [hunfold]
          exact ih (m + 1) (failures + 1) successes image mask hwf hrest
      · have hgetf : mask.get (y, x) = false := by
          rw [Bool.not_eq_true] at hget
          exact hget
        have hunfold : seedStage1 colors image mask ((y, x) :: rest) (m + 1)
            failures successes =
          let r := seedStage1 colors (image.setPx (y, x) (colors successes))
            (mask.set (y, x) true) rest m failures (successes + 1)
          ⟨r.image, r.placed_pixels, ⟨↑x, ↑y⟩ :: r.placed, r.failures,
            r.successes, r.aborted⟩ := by
          simp [seedStage1, hgetf]
        rw [hunfold]
        simp only
        obtain ⟨hwf2, hh2, hw2, _⟩ := BitMap.WF_set mask (y, x) true hwf
        have hrest2 : ∀ t ∈ rest, t.1 < (mask.set (y, x) true).height ∧
            t.2 < (mask.set (y, x) true).width := by
          intro t ht
          rw [hh2, hw2]
          exact hrest t ht
        obtain ⟨iwf, ih1, ih2, ihsucc, ihlen, ihcount, ihmono, ihplaced,
          ihnodup⟩ :=
          ih m failures (successes + 1)
            (image.setPx (y, x) (colors successes)) (mask.set (y, x) true)
            hwf2 hrest2
        have hmono1 : ∀ r c, r < mask.height → c < mask.width →
            mask.get (r, c) = true →
            (mask.set (y, x) true).get (r, c) = true := by
          intro r c hr hc h
          exact BitMap.get_mono_set_true mask hwf y x r c hhead.1 hhead.2 hr
            hc h
        have hsetget : (mask.set (y, x) true).get (y, x) = true := by
          rw [BitMap.get_set mask hwf y x y x true hhead.1 hhead.2 hhead.1
            hhead.2]
          simp
        have hcount2 : (mask.set (y, x) true).trueCount =
            mask.trueCount + 1 :=
          BitMap.trueCount_set_true mask hwf y x hhead.1 hhead.2 hgetf
        refine ⟨iwf, by rw [ih1, hh2], by rw [ih2, hw2], ?_, ?_, ?_, ?_, ?_,
          ?_⟩
        · rw [ihsucc]
          simp
          omega
        · simp only [List.length_cons]
          omega
        · rw [ihcount, hcount2]
          simp only [List.length_cons]
          omega
        · intro r c hr hc h
          apply ihmono r c (by rw [hh2]; exact hr) (by rw [hw2]; exact hc)
          exact hmono1 r c hr hc h
        · intro p hp
          rcases List.mem_cons.mp hp with hp | hp
          · subst hp
            refine ⟨by simp, by simp, ?_, ?_, ?_, ?_⟩
            · simp
              exact hhead.1
            · simp
              exact hhead.2
            · simp only [Int.toNat_natCast]
              apply ihmono y x (by rw [hh2]; exact hhead.1)
                (by rw [hw2]; exact hhead.2)
              exact hsetget
            · simp only [Int.toNat_natCast]
              exact hgetf
          · obtain ⟨hpx, hpy, hpyb, hpxb, hpget, hpfresh⟩ := ihplaced p hp
            refine ⟨hpx, hpy, by rw [← hh2]; exact hpyb,
              by rw [← hw2]; exact hpxb, hpget, ?_⟩
            by_cases hcontra : mask.get (p.y.toNat, p.x.toNat)
            · exfalso
              have := hmono1 p.y.toNat p.x.toNat (by rw [← hh2]; exact hpyb)
                (by rw [← hw2]; exact hpxb) hcontra
              rw [this] at hpfresh
              cases hpfresh
            · rw [Bool.not_eq_true] at hcontra
              exact hcontra
        · rw [List.nodup_cons]
          refine ⟨?_, ihnodup⟩
          intro hmem
          obtain ⟨_, _, _, _, _, hfresh⟩ := ihplaced _ hmem
          simp only [Int.toNat_natCast] at hfresh
          rw [hsetget] at hfresh
          cases hfresh

/-- Bookkeeping facts about stage 2 of seeding, for a duplicate-free list
of in-bounds unplaced cells: every cell is placed, counters and
`trueCount` advance by the list length, set bits stay set, and the placed
pixels are distinct. -/
theorem seedStage2_spec (colors : Nat → Color) :
    ∀ (chosen : List (Nat × Nat)) (image : PnmData) (mask : BitMap)
      (successes : Nat), mask.WF → chosen.Nodup →
      (∀ t ∈ chosen, t.1 < mask.height ∧ t.2 < mask.width ∧
        mask.get (t.1, t.2) = false) →
      (seedStage2 colors chosen image mask successes).placed_pixels.WF ∧
      (seedStage2 colors chosen image mask successes).placed_pixels.height =
        mask.height ∧
      (seedStage2 colors chosen image mask successes).placed_pixels.width =
        mask.width ∧
      (seedStage2 colors chosen image mask successes).successes =
        successes + chosen.length ∧
      (seedStage2 colors chosen image mask successes).placed.length =
        chosen.length ∧
      (seedStage2 colors chosen image mask successes).placed_pixels.trueCount
        = mask.trueCount + chosen.length ∧
      (∀ r c, r < mask.height → c < mask.width → mask.get (r, c) = true →
        (seedStage2 colors chosen image mask successes).placed_pixels.get
          (r, c) = true) ∧
      (∀ p ∈ (seedStage2 colors chosen image mask successes).placed,
        0 ≤ p.x ∧ 0 ≤ p.y ∧ p.y.toNat < mask.height ∧
          p.x.toNat < mask.width ∧
          (seedStage2 colors chosen image mask successes).placed_pixels.get
            (p.y.toNat, p.x.toNat) = true ∧
          mask.get (p.y.toNat, p.x.toNat) = false) ∧
      (seedStage2 colors chosen image mask successes).placed.Nodup := by
  intro chosen
  induction chosen with
  | nil =>
    intro image mask successes hwf _ _
    refine ⟨hwf, rfl, rfl, by simp [seedStage2], by simp [seedStage2],
      by simp [seedStage2], ?_, ?_, by simp [seedStage2]⟩
    · intro r c _ _ h
      exact h
    · intro p hp
      simp [seedStage2] at hp
  | cons t rest ih =>
    intro image mask successes hwf hnodup hmem
    rcases t with ⟨y, x⟩
    obtain ⟨hy, hx, hfree⟩ := hmem (y, x) (List.mem_cons_self _ _)
    obtain ⟨hwf2, hh2, hw2, _⟩ := BitMap.WF_set mask (y, x) true hwf
    have hnodup2 := (List.nodup_cons.mp hnodup).2
    have hnotmem := (List.nodup_cons.mp hnodup).1
    have hmem2 : ∀ t ∈ rest, t.1 < (mask.set (y, x) true).height ∧
        t.2 < (mask.set (y, x) true).width ∧
        (mask.set (y, x) true).get (t.1, t.2) = false := by
      intro u hu
      obtain ⟨hu1, hu2, hu3⟩ := hmem u (List.mem_cons_of_mem _ hu)
      refine ⟨by rw [hh2]; exact hu1, by rw [hw2]; exact hu2, ?_⟩
      rw [BitMap.get_set mask hwf y x u.1 u.2 true hy hx hu1 hu2]
      rw [if_neg]
      · exact hu3
      · rintro ⟨h1, h2⟩
        apply hnotmem
        have : u = (y, x) := by
          rcases u with ⟨u1, u2⟩
          simp only at h1 h2
          rw [h1, h2]
        rw [← this]
        exact hu
    have hunfold : seedStage2 colors ((y, x) :: rest) image mask successes =
        let r := seedStage2 colors rest
          (image.setPx (y, x) (colors successes)) (mask.set (y, x) true)
          (successes + 1)
        ⟨r.image, r.placed_pixels, ⟨↑x, ↑y⟩ :: r.placed, r.successes⟩ := rfl
    rw [hunfold]
    simp only
    obtain ⟨iwf, ih1, ih2, ihsucc, ihlen, ihcount, ihmono, ihplaced,
      ihnodup⟩ := ih (image.setPx (y, x) (colors successes))
        (mask.set (y, x) true) (successes + 1) hwf2 hnodup2 hmem2
    have hmono1 : ∀ r c, r < mask.height → c < mask.width →
        mask.get (r, c) = true → (mask.set (y, x) true).get (r, c) = true :=
      fun r c hr hc h => BitMap.get_mono_set_true mask hwf y x r c hy hx hr
        hc h
    have hsetget : (mask.set (y, x) true).get (y, x) = true := by
      rw [BitMap.get_set mask hwf y x y x true hy hx hy hx]
      simp
    have hcount2 : (mask.set (y, x) true).trueCount = mask.trueCount + 1 :=
      BitMap.trueCount_set_true mask hwf y x hy hx hfree
    refine ⟨iwf, by rw [ih1, hh2], by rw [ih2, hw2], ?_, ?_, ?_, ?_, ?_, ?_⟩
    · rw [ihsucc]
      simp only [List.length_cons]
      omega
    · simp only [List.length_cons, ihlen]
    · rw [ihcount, hcount2]
      simp only [List.length_cons]
      omega
    · intro r c hr hc h
      apply ihmono r c (by rw [hh2]; exact hr) (by rw [hw2]; exact hc)
      exact hmono1 r c hr hc h
    · intro p hp
      rcases List.mem_cons.mp hp with hp | hp
      · subst hp
        refine ⟨by simp, by simp, by simp [hy], by simp [hx], ?_, ?_⟩
        · simp only [Int.toNat_natCast]
          apply ihmono y x (by rw [hh2]; exact hy) (by rw [hw2]; exact hx)
          exact hsetget
        · simp only [Int.toNat_natCast]
          exact hfree
      · obtain ⟨hpx, hpy, hpyb, hpxb, hpget, hpfresh⟩ := ihplaced p hp
        refine ⟨hpx, hpy, by rw [← hh2]; exact hpyb,
          by rw [← hw2]; exact hpxb, hpget, ?_⟩
        by_cases hcontra : mask.get (p.y.toNat, p.x.toNat)
        · exfalso
          have := hmono1 p.y.toNat p.x.toNat (by rw [← hh2]; exact hpyb)
            (by rw [← hw2]; exact hpxb) hcontra
          rw [this] at hpfresh
          cases hpfresh
        · rw [Bool.not_eq_true] at hcontra
          exact hcontra
    · rw [List.nodup_cons]
      refine ⟨?_, ihnodup⟩
      intro hmemp
      obtain ⟨_, _, _, _, _, hfresh⟩ := ihplaced _ hmemp
      simp only [Int.toNat_natCast] at hfresh
      rw [hsetget] at hfresh
      cases hfresh

namespace BitMap

/-- Auxiliary: a row-sum of complements over `List.range n`. -/
theorem sum_map_range_sub (f : Nat → Nat) (w n : Nat)
    (h : ∀ i, i < n → f i ≤ w) :
    ((List.range n).map fun i => w - f i).sum =
      n * w - ((List.range n).map f).sum := by
  induction n with
  | zero => simp
  | succ n ih =>
    rw [List.range_succ, List.map_append, List.map_append, List.sum_append,
      List.sum_append]
    simp only [List.map_cons, List.map_nil, List.sum_cons, List.sum_nil]
    have h1 := ih (fun i hi => h i (by omega))
    have h2 := h n (by omega)
    have h3 := sum_map_range_le f w n (fun i hi => h i (by omega))
    have h4 : (n + 1) * w = n * w + w := by ring
    omega

/-- Complementary counts per row. -/
theorem countP_not_add (n : Nat) (p : Nat → Bool) :
    (List.range n).countP (fun c => !p c) + (List.range n).countP p = n := by
  induction n with
  | zero => simp
  | succ n ih =>
    rw [List.range_succ, List.countP_append, List.countP_append]
    simp only [List.countP_cons, List.countP_nil]
    by_cases h : p n
    · simp [h]
      omega
    · simp [h]
      omega

/-- The number of cells `for_each_false` visits on a well-formed bitmap is
the number of still-clear in-bounds bits. -/
theorem forEachFalseList_length (bm : BitMap) (hwf : bm.WF) :
    bm.forEachFalseList.length = bm.height * bm.width - bm.trueCount := by
  rw [forEachFalseList_eq bm hwf]
  rw [List.length_flatMap]
  simp only [Function.comp_def]
  have hrow : ∀ r, (((List.range bm.width).filter fun col =>
        !bm.get (r, col)).map fun col => (r, col)).length =
      bm.width - (List.range bm.width).countP fun c => bm.get (r, c) := by
    intro r
    rw [List.length_map, ← List.countP_eq_length_filter]
    have := countP_not_add bm.width (fun c => bm.get (r, c))
    omega
  have hmap : (List.range bm.height).map (fun row =>
      (((List.range bm.width).filter fun col => !bm.get (row, col)).map
        fun col => (row, col)).length) =
    (List.range bm.height).map (fun row =>
      bm.width - (List.range bm.width).countP fun c => bm.get (row, c)) := by
    apply List.map_congr_left
    intro r _
    exact hrow r
  rw [hmap, sum_map_range_sub]
  · rfl
  · intro i _
    calc (List.range bm.width).countP (fun c => bm.get (i, c)) ≤
        (List.range bm.width).length := List.countP_le_length _
      _ = bm.width := List.length_range _

end BitMap

/-- Full bookkeeping for `place_seeds_common`, with `choose` modelling
`choose_multiple` (a duplicate-free sample of the requested size): the mask
stays well-formed with unchanged dimensions, `trueCount` grows by the
number of placed seeds, set bits stay set, every placed seed is an
in-bounds previously-free pixel that is now set, the placed list is
duplicate-free of size at most `count`, and of size exactly `count`
whenever at least `count` pixels were unplaced. -/
theorem place_seeds_common_spec (count : Nat) (tries : List (Nat × Nat))
    (colors : Nat → Color)
    (choose : List (Nat × Nat) → Nat → List (Nat × Nat)) (image : PnmData)
    (mask : BitMap) (hwf : mask.WF)
    (htries : ∀ t ∈ tries, t.1 < mask.height ∧ t.2 < mask.width)
    (hsub : ∀ l n, List.Sublist (choose l n) l)
    (hlen : ∀ l n, (choose l n).length = min n l.length) :
    (place_seeds_common count tries colors choose image
        mask).placed_pixels.WF ∧
    (place_seeds_common count tries colors choose image
        mask).placed_pixels.height = mask.height ∧
    (place_seeds_common count tries colors choose image
        mask).placed_pixels.width = mask.width ∧
    (place_seeds_common count tries colors choose image
        mask).placed_pixels.trueCount = mask.trueCount +
      (place_seeds_common count tries colors choose image
        mask).placed.length ∧
    (∀ r c, r < mask.height → c < mask.width → mask.get (r, c) = true →
      (place_seeds_common count tries colors choose image
        mask).placed_pixels.get (r, c) = true) ∧
    (∀ p ∈ (place_seeds_common count tries colors choose image mask).placed,
      0 ≤ p.x ∧ 0 ≤ p.y ∧ p.y.toNat < mask.height ∧
        p.x.toNat < mask.width ∧
        (place_seeds_common count tries colors choose image
          mask).placed_pixels.get (p.y.toNat, p.x.toNat) = true ∧
        mask.get (p.y.toNat, p.x.toNat) = false) ∧
    (place_seeds_common count tries colors choose image mask).placed.Nodup ∧
    (place_seeds_common count tries colors choose image
      mask).placed.length ≤ count ∧
    (count ≤ mask.height * mask.width - mask.trueCount →
      (place_seeds_common count tries colors choose image
        mask).placed.length = count) := by
  obtain ⟨s1wf, s1h, s1w, s1succ, s1len, s1count, s1mono, s1placed,
    s1nodup⟩ := seedStage1_spec colors tries count 0 0 image mask hwf htries
  unfold place_seeds_common
  by_cases hcase : (seedStage1 colors image mask tries count 0 0).successes
      < count
  · rw [if_pos hcase]
    simp only
    set r1 := seedStage1 colors image mask tries count 0 0 with hr1
    set all_empty := r1.placed_pixels.forEachFalseList with hempty
    set chosen := choose all_empty (count - r1.successes) with hchosen
    have hef := C9_for_each_false r1.placed_pixels s1wf
    have hchnodup : chosen.Nodup := (hsub all_empty _).nodup hef.2
    have hchmem : ∀ t ∈ chosen, t.1 < r1.placed_pixels.height ∧
        t.2 < r1.placed_pixels.width ∧
        r1.placed_pixels.get (t.1, t.2) = false := by
      intro t ht
      have hmem := (hsub all_empty _).subset ht
      have := (hef.1 t.1 t.2).mp (by rcases t with ⟨a, b⟩; exact hmem)
      exact ⟨this.1, this.2.1, this.2.2⟩
    obtain ⟨s2wf, s2h, s2w, s2succ, s2len, s2count, s2mono, s2placed,
      s2nodup⟩ := seedStage2_spec colors chosen r1.image r1.placed_pixels
        r1.successes s1wf hchnodup hchmem
    set r2 := seedStage2 colors chosen r1.image r1.placed_pixels
      r1.successes with hr2
    have hchlen : chosen.length = min (count - r1.successes)
        all_empty.length := hlen _ _
    have hs1lenv : r1.successes = r1.placed.length := by
      rw [s1succ]
      omega
    refine ⟨s2wf, by rw [s2h, s1h], by rw [s2w, s1w], ?_, ?_, ?_, ?_, ?_,
      ?_⟩
    · rw [List.length_append, s2count, s1count, s2len]
      omega
    · intro r c hr hc h
      apply s2mono r c (by rw [s1h]; exact hr) (by rw [s1w]; exact hc)
      exact s1mono r c hr hc h
    · intro p hp
      rcases List.mem_append.mp hp with hp | hp
      · obtain ⟨h1, h2, h3, h4, h5, h6⟩ := s1placed p hp
        refine ⟨h1, h2, h3, h4, ?_, h6⟩
        apply s2mono _ _ (by rw [s1h]; exact h3) (by rw [s1w]; exact h4) h5
      · obtain ⟨h1, h2, h3, h4, h5, h6⟩ := s2placed p hp
        refine ⟨h1, h2, by rw [← s1h]; exact h3, by rw [← s1w]; exact h4,
          h5, ?_⟩
        by_cases hcontra : mask.get (p.y.toNat, p.x.toNat)
        · exfalso
          have := s1mono p.y.toNat p.x.toNat (by rw [← s1h]; exact h3)
            (by rw [← s1w]; exact h4) hcontra
          rw [this] at h6
          cases h6
        · rw [Bool.not_eq_true] at hcontra
          exact hcontra
    · rw [List.nodup_append]
      refine ⟨s1nodup, s2nodup, ?_⟩
      intro p hp1 hp2
      obtain ⟨_, _, _, _, hset, _⟩ := s1placed p hp1
      obtain ⟨_, _, _, _, _, hfree⟩ := s2placed p hp2
      rw [hset] at hfree
      cases hfree
    · rw [List.length_append, s2len]
      omega
    · intro hunplaced
      have hemptylen : all_empty.length =
          r1.placed_pixels.height * r1.placed_pixels.width -
            r1.placed_pixels.trueCount :=
        BitMap.forEachFalseList_length r1.placed_pixels s1wf
      rw [s1h, s1w, s1count] at hemptylen
      rw [List.length_append, s2len, hchlen, hemptylen]
      omega
  · rw [if_neg hcase]
    simp only
    have hs1lenv : (seedStage1 colors image mask tries count 0 0).successes =
        (seedStage1 colors image mask tries count 0 0).placed.length := by
      rw [s1succ]
      omega
    refine ⟨s1wf, s1h, s1w, s1count, s1mono, s1placed, s1nodup, s1len, ?_⟩
    intro _
    omega

/-- The cumulative failure counter: stage 1 aborts exactly by reaching 4
total failures (counted across all seeds and retries, never reset), and the
counter never passes 4. -/
theorem seedStage1_failures (colors : Nat → Color) :
    ∀ (tries : List (Nat × Nat)) (n failures successes : Nat)
      (image : PnmData) (mask : BitMap), failures < 4 →
      ((seedStage1 colors image mask tries n failures successes).aborted =
          true →
        (seedStage1 colors image mask tries n failures successes).failures =
          4) ∧
      (seedStage1 colors image mask tries n failures successes).failures ≤ 4
      := by
  intro tries
  induction tries with
  | nil =>
    intro n failures successes image mask hf
    cases n with
    | zero => exact ⟨fun h => Bool.noConfusion h, by show failures ≤ 4; omega⟩
    | succ m => exact ⟨fun h => Bool.noConfusion h, by show failures ≤ 4; omega⟩
  | cons t rest ih =>
    intro n failures successes image mask hf
    rcases t with ⟨y, x⟩
    cases n with
    | zero => exact ⟨fun h => Bool.noConfusion h, by show failures ≤ 4; omega⟩
    | succ m =>
      by_cases hget : mask.get (y, x)
      · by_cases habort : failures + 1 ≥ 4
        · have hunfold : seedStage1 colors image mask ((y, x) :: rest)
              (m + 1) failures successes =
            ⟨image, mask, [], failures + 1, successes, true⟩ := by
            simp [seedStage1, hget, habort]
          rw [hunfold]
          refine ⟨fun _ => ?_, ?_⟩
          · show failures + 1 = 4
            omega
          · show failures + 1 ≤ 4
            omega
        · have hunfold : seedStage1 colors image mask ((y, x) :: rest)
              (m + 1) failures successes =
            seedStage1 colors image mask rest (m + 1) (failures + 1)
              successes := by
            simp [seedStage1, hget, habort]
          rw [hunfold]
          exact ih (m + 1) (failures + 1) successes image mask (by omega)
      · have hgetf : mask.get (y, x) = false := by
          rw [Bool.not_eq_true] at hget
          exact hget
        have hunfold : seedStage1 colors image mask ((y, x) :: rest) (m + 1)
            failures successes =
          let r := seedStage1 colors (image.setPx (y, x) (colors successes))
            (mask.set (y, x) true) rest m failures (successes + 1)
          ⟨r.image, r.placed_pixels, ⟨↑x, ↑y⟩ :: r.placed, r.failures,
            r.successes, r.aborted⟩ := by
          simp [seedStage1, hgetf]
        rw [hunfold]
        exact ih m failures (successes + 1)
          (image.setPx (y, x) (colors successes)) (mask.set (y, x) true) hf

/-- Claim C5 as stated — per-seed retry counting, abandoning only after 4
consecutive failures of a single seed — is false: with three cells
pre-placed, the draws fail 3 times on seed 1, succeed, then fail once on
seed 2; the code's cumulative counter reaches 4 and abandons the random
strategy (`aborted = true`, one seed placed), whereas the claim's per-seed
reading (counter reset per seed) places both seeds and never abandons. -/
theorem C5_counterexample :
    (seedStage1 (fun _ => default)
        ⟨4, 4, 255, 3, List.replicate 16 (default : Color)⟩
        ((((BitMap.new 4 4).set (0, 0) true).set (0, 1) true).set (0, 2)
          true)
        [(0, 0), (0, 1), (0, 2), (1, 0), (0, 0), (1, 1)] 2 0 0).aborted =
      true ∧
    (seedStage1 (fun _ => default)
        ⟨4, 4, 255, 3, List.replicate 16 (default : Color)⟩
        ((((BitMap.new 4 4).set (0, 0) true).set (0, 1) true).set (0, 2)
          true)
        [(0, 0), (0, 1), (0, 2), (1, 0), (0, 0), (1, 1)] 2 0 0).successes =
      1 ∧
    (seedStage1PerSeedClaim (fun _ => default)
        ⟨4, 4, 255, 3, List.replicate 16 (default : Color)⟩
        ((((BitMap.new 4 4).set (0, 0) true).set (0, 1) true).set (0, 2)
          true)
        [(0, 0), (0, 1), (0, 2), (1, 0), (0, 0), (1, 1)] 2 0 0).aborted =
      false ∧
    (seedStage1PerSeedClaim (fun _ => default)
        ⟨4, 4, 255, 3, List.replicate 16 (default : Color)⟩
        ((((BitMap.new 4 4).set (0, 0) true).set (0, 1) true).set (0, 2)
          true)
        [(0, 0), (0, 1), (0, 2), (1, 0), (0, 0), (1, 1)] 2 0 0).successes =
      2 := by
  refine ⟨?_, ?_, ?_, ?_⟩ <;> decide

/-- Claim C5, amended: the failure counter is cumulative across the whole
seed phase (shared by all seeds, never reset on success); the random stage
is abandoned exactly when it reaches 4 total failures, and the counter
never exceeds 4. The remaining seeds are then placed by sampling the
enumerated unplaced set, so that whenever at least `count` pixels are
unplaced, exactly `count` seeds are placed in total. -/
theorem C5_amended (count : Nat) (tries : List (Nat × Nat))
    (colors : Nat → Color)
    (choose : List (Nat × Nat) → Nat → List (Nat × Nat)) (image : PnmData)
    (mask : BitMap) (hwf : mask.WF)
    (htries : ∀ t ∈ tries, t.1 < mask.height ∧ t.2 < mask.width)
    (hsub : ∀ l n, List.Sublist (choose l n) l)
    (hlen : ∀ l n, (choose l n).length = min n l.length)
    (hunplaced : count ≤ mask.height * mask.width - mask.trueCount) :
    ((seedStage1 colors image mask tries count 0 0).aborted = true →
      (seedStage1 colors image mask tries count 0 0).failures = 4) ∧
    (seedStage1 colors image mask tries count 0 0).failures ≤ 4 ∧
    (place_seeds_common count tries colors choose image mask).placed.length =
      count := by
  obtain ⟨h1, h2⟩ := seedStage1_failures colors tries count 0 0 image mask
    (by omega)
  obtain ⟨_, _, _, _, _, _, _, _, hexact⟩ :=
    place_seeds_common_spec count tries colors choose image mask hwf htries
      hsub hlen
  exact ⟨h1, h2, hexact hunplaced⟩

/-- Closed witness for `C5_amended`: a fresh 2 × 2 mask, one seed, a single
in-bounds draw, `choose` taking a prefix of the sample. -/
theorem C5_amended_witness :
    ((seedStage1 (fun _ => default)
        ⟨2, 2, 255, 3, List.replicate 4 (default : Color)⟩ (BitMap.new 2 2)
        [(0, 0)] 1 0 0).aborted = true →
      (seedStage1 (fun _ => default)
        ⟨2, 2, 255, 3, List.replicate 4 (default : Color)⟩ (BitMap.new 2 2)
        [(0, 0)] 1 0 0).failures = 4) ∧
    (seedStage1 (fun _ => default)
        ⟨2, 2, 255, 3, List.replicate 4 (default : Color)⟩ (BitMap.new 2 2)
        [(0, 0)] 1 0 0).failures ≤ 4 ∧
    (place_seeds_common 1 [(0, 0)] (fun _ => default)
        (fun l n => l.take n)
        ⟨2, 2, 255, 3, List.replicate 4 (default : Color)⟩
        (BitMap.new 2 2)).placed.length = 1 :=
  C5_amended 1 [(0, 0)] (fun _ => default) (fun l n => l.take n)
    ⟨2, 2, 255, 3, List.replicate 4 (default : Color)⟩ (BitMap.new 2 2)
    (by constructor <;> rfl)
    (by
      intro t ht
      rw [List.mem_singleton] at ht
      subst ht
      exact ⟨by decide, by decide⟩)
    (fun l n => List.take_sublist n l) (fun l n => List.length_take n l)
    (by rw [BitMap.trueCount_new]; simp [BitMap.new])

/-- The generator-visible shared state (`CommonData` + its `locked`
interior, `main.rs` lines 19-40): image, placed mask, edge queue, the two
atomic counters, and the `finished` flag. -/
structure GenState where
  image : PnmData
  placed_pixels : BitMap
  edges : List Pixel
  pixelsPlaced : Nat
  pixelsGenerated : Nat
  finished : Bool

/-- The state built by `setup::handle_opts` (`setup.rs` lines 59-92):
zeroed image of `dimy * dimx` cells, fresh mask, empty edge queue, zero
counters, not finished. -/
def initState (dimy dimx maxval : Nat) : GenState :=
  { image := ⟨dimx, dimy, maxval, 3, List.replicate (dimy * dimx) default⟩,
    placed_pixels := BitMap.new dimy dimx,
    edges := [],
    pixelsPlaced := 0,
    pixelsGenerated := 0,
    finished := false }

/-- Seeding as performed by the generator (`generate.rs` lines 148-155 and
the re-seed at 173-180 / 334-341): run `place_seeds_common`, add the number
of placed seeds to both counters, and extend the edge queue with the placed
seeds. -/
def applySeed (count : Nat) (tries : List (Nat × Nat))
    (colors : Nat → Color)
    (choose : List (Nat × Nat) → Nat → List (Nat × Nat)) (s : GenState) :
    GenState :=
  let r := place_seeds_common count tries colors choose s.image
    s.placed_pixels
  { image := r.image,
    placed_pixels := r.placed_pixels,
    edges := s.edges ++ r.placed,
    pixelsPlaced := s.pixelsPlaced + r.placed.length,
    pixelsGenerated := s.pixelsGenerated + r.placed.length,
    finished := s.finished }

/-- Candidate sampling (`generate.rs` lines 190-191 / 366-367):
`pixels_generated` advances by the number of sampled colors. -/
def applyGenerateColors (k : Nat) (s : GenState) : GenState :=
  { s with pixelsGenerated := s.pixelsGenerated + k }

/-- One placement attempt (`generate.rs` lines 224-237 / 404-417): on `Ok`
the mutated image/edges/mask are kept and `pixels_placed` advances by one;
on `Err` a warning is logged and nothing changes. -/
def applyPlace (dimy dimx : Nat) (offsets : List Offset) (pixel : Pixel)
    (color : Color) (s : GenState) : GenState :=
  let r := place_pixel_inner dimy dimx pixel color s.image s.edges
    s.placed_pixels offsets
  match r.1 with
  | some _ =>
    { image := r.2.1,
      placed_pixels := r.2.2.2,
      edges := r.2.2.1,
      pixelsPlaced := s.pixelsPlaced + 1,
      pixelsGenerated := s.pixelsGenerated,
      finished := s.finished }
  | none => s

/-- The end-of-iteration check (`generate.rs` lines 238-240 / 418-420):
set `finished` exactly when `pixels_placed == size`. -/
def applyFinishCheck (size : Nat) (s : GenState) : GenState :=
  if s.pixelsPlaced = size then { s with finished := true } else s

/-- Frontier revalidation (`generate.rs` lines 242 / 422). -/
def applyRevalidate (dimy dimx : Nat) (offsets : List Offset)
    (s : GenState) : GenState :=
  { s with
    edges := validate_inner_edges dimy dimx s.edges s.placed_pixels offsets }

/-- One generator-side state mutation, covering both the single-worker and
the worker-pool main loops (their state updates are identical; the
best-fit scan itself reads but never writes). Mutating steps occur only
while `finished` is still unset, as in the source where the loop exits at
the barrier once `finished` holds. Randomness enters through the oracle
parameters. -/
inductive GenStep (dimy dimx : Nat) : GenState → GenState → Prop
  | seed (s : GenState) (count : Nat) (tries : List (Nat × Nat))
      (colors : Nat → Color)
      (choose : List (Nat × Nat) → Nat → List (Nat × Nat))
      (hfin : s.finished = false)
      (htries : ∀ t ∈ tries, t.1 < dimy ∧ t.2 < dimx)
      (hsub : ∀ l n, List.Sublist (choose l n) l)
      (hlen : ∀ l n, (choose l n).length = min n l.length) :
      GenStep dimy dimx s (applySeed count tries colors choose s)
  | genColors (s : GenState) (k : Nat) (hfin : s.finished = false) :
      GenStep dimy dimx s (applyGenerateColors k s)
  | place (s : GenState) (offsets : List Offset) (pixel : Pixel)
      (color : Color) (hfin : s.finished = false) :
      GenStep dimy dimx s (applyPlace dimy dimx offsets pixel color s)
  | finish (s : GenState) :
      GenStep dimy dimx s (applyFinishCheck (dimy * dimx) s)
  | revalidate (s : GenState) (offsets : List Offset)
      (hfin : s.finished = false) :
      GenStep dimy dimx s (applyRevalidate dimy dimx offsets s)

/-- The generator invariant: the mask is well formed with the configured
dimensions, `pixels_placed` counts exactly the set mask bits, `finished`
implies the image is full, and the frontier holds pairwise-distinct
in-bounds placed pixels. -/
def GenInv (dimy dimx : Nat) (s : GenState) : Prop :=
  s.placed_pixels.WF ∧ s.placed_pixels.height = dimy ∧
    s.placed_pixels.width = dimx ∧
    s.pixelsPlaced = s.placed_pixels.trueCount ∧
    (s.finished = true → s.pixelsPlaced = dimy * dimx) ∧
    s.edges.Nodup ∧
    ∀ p ∈ s.edges, 0 ≤ p.x ∧ 0 ≤ p.y ∧ p.y.toNat < dimy ∧
      p.x.toNat < dimx ∧ s.placed_pixels.get (p.y.toNat, p.x.toNat) = true

/-- The initial state satisfies the invariant. -/
theorem GenInv_init (dimy dimx maxval : Nat) :
    GenInv dimy dimx (initState dimy dimx maxval) := by
  obtain ⟨hwf, hh, hw, _⟩ := BitMap.new_spec dimy dimx
  refine ⟨hwf, hh, hw, ?_, ?_, List.nodup_nil, ?_⟩
  · show 0 = (BitMap.new dimy dimx).trueCount
    rw [BitMap.trueCount_new]
  · intro h
    cases h
  · intro p hp
    cases hp

/-- Decomposition of a successful neighbor test. -/
theorem openNeighbor_true_iff (dimy dimx : Nat) (placed_pixels : BitMap)
    (pixel : Pixel) (o : Offset) :
    openNeighbor dimy dimx placed_pixels pixel o = true ↔
      (¬ (pixel.y + o.dy < 0 ∨ dimy ≤ (pixel.y + o.dy).toNat)) ∧
      (¬ (pixel.x + o.dx < 0 ∨ dimx ≤ (pixel.x + o.dx).toNat)) ∧
      placed_pixels.get ((pixel.y + o.dy).toNat, (pixel.x + o.dx).toNat) =
        false := by
  unfold openNeighbor
  by_cases hy : pixel.y + o.dy < 0 ∨ dimy ≤ (pixel.y + o.dy).toNat
  · rw [if_pos hy]
    simp [hy]
  · rw [if_neg hy]
    by_cases hx : pixel.x + o.dx < 0 ∨ dimx ≤ (pixel.x + o.dx).toNat
    · rw [if_pos hx]
      simp [hy, hx]
    · rw [if_neg hx]
      simp [hy, hx]

/-- Invariant effect of one placement call: on `Err` the edge queue and the
mask come back unchanged; on `Ok` the invariant state facts are restored
with one more set bit. -/
theorem place_pixel_inner_inv (dimy dimx : Nat) (pixel : Pixel)
    (color : Color) (image : PnmData) (edges : List Pixel) (mask : BitMap)
    (offsets : List Offset) (hwf : mask.WF) (hh : mask.height = dimy)
    (hw : mask.width = dimx)
    (hedges : ∀ p ∈ edges, 0 ≤ p.x ∧ 0 ≤ p.y ∧ p.y.toNat < dimy ∧
      p.x.toNat < dimx ∧ mask.get (p.y.toNat, p.x.toNat) = true)
    (hnodup : edges.Nodup) :
    ((place_pixel_inner dimy dimx pixel color image edges mask offsets).1 =
        none →
      (place_pixel_inner dimy dimx pixel color image edges mask
          offsets).2.2.1 = edges ∧
      (place_pixel_inner dimy dimx pixel color image edges mask
          offsets).2.2.2 = mask) ∧
    (∀ loc, (place_pixel_inner dimy dimx pixel color image edges mask
        offsets).1 = some loc →
      (place_pixel_inner dimy dimx pixel color image edges mask
          offsets).2.2.2.WF ∧
      (place_pixel_inner dimy dimx pixel color image edges mask
          offsets).2.2.2.height = dimy ∧
      (place_pixel_inner dimy dimx pixel color image edges mask
          offsets).2.2.2.width = dimx ∧
      (place_pixel_inner dimy dimx pixel color image edges mask
          offsets).2.2.2.trueCount = mask.trueCount + 1 ∧
      (place_pixel_inner dimy dimx pixel color image edges mask
          offsets).2.2.1.Nodup ∧
      (∀ p ∈ (place_pixel_inner dimy dimx pixel color image edges mask
          offsets).2.2.1,
        0 ≤ p.x ∧ 0 ≤ p.y ∧ p.y.toNat < dimy ∧ p.x.toNat < dimx ∧
          (place_pixel_inner dimy dimx pixel color image edges mask
            offsets).2.2.2.get (p.y.toNat, p.x.toNat) = true)) := by
  induction offsets with
  | nil =>
    constructor
    · intro _
      exact ⟨rfl, rfl⟩
    · intro loc h
      cases h
  | cons o rest ih =>
    rw [place_pixel_inner_cons]
    by_cases hopen : openNeighbor dimy dimx mask pixel o
    · rw [if_pos hopen]
      obtain ⟨hy, hx, hfree⟩ := (openNeighbor_true_iff dimy dimx mask pixel
        o).mp hopen
      have hyb : (pixel.y + o.dy).toNat < dimy := by omega
      have hxb : (pixel.x + o.dx).toNat < dimx := by omega
      have hyb' : (pixel.y + o.dy).toNat < mask.height := by omega
      have hxb' : (pixel.x + o.dx).toNat < mask.width := by omega
      obtain ⟨hwf2, hh2, hw2, hs2⟩ := BitMap.WF_set mask
        ((pixel.y + o.dy).toNat, (pixel.x + o.dx).toNat) true hwf
      constructor
      · intro h
        cases h
      · intro loc _
        refine ⟨hwf2, by rw [hh2, hh], by rw [hw2, hw], ?_, ?_, ?_⟩
        · show (mask.set ((pixel.y + o.dy).toNat, (pixel.x + o.dx).toNat)
              true).trueCount = mask.trueCount + 1
          exact BitMap.trueCount_set_true mask hwf _ _ hyb' hxb' hfree
        · show (edges ++ [(⟨pixel.x + o.dx, pixel.y + o.dy⟩ : Pixel)]).Nodup
          rw [List.nodup_append]
          refine ⟨hnodup, List.nodup_singleton _, ?_⟩
          intro p hp hp2
          rw [List.mem_singleton] at hp2
          subst hp2
          obtain ⟨_, _, _, _, hpl⟩ := hedges _ hp
          simp only at hpl
          rw [hpl] at hfree
          cases hfree
        · intro p hp
          rcases List.mem_append.mp hp with hp | hp
          · obtain ⟨h1, h2, h3, h4, h5⟩ := hedges p hp
            refine ⟨h1, h2, h3, h4, ?_⟩
            exact BitMap.get_mono_set_true mask hwf _ _ _ _ hyb' hxb'
              (by omega) (by omega) h5
          · rw [List.mem_singleton] at hp
            subst hp
            refine ⟨by simp only; omega, by simp only; omega,
              by simp only; exact hyb, by simp only; exact hxb, ?_⟩
            show (mask.set ((pixel.y + o.dy).toNat, (pixel.x + o.dx).toNat)
                true).get ((pixel.y + o.dy).toNat, (pixel.x + o.dx).toNat) =
              true
            rw [BitMap.get_set mask hwf _ _ _ _ true hyb' hxb' hyb' hxb']
            simp
    · rw [if_neg hopen]
      exact ih


/-- Every generator step preserves the invariant. -/
theorem GenInv_step (dimy dimx : Nat) (s s2 : GenState)
    (hstep : GenStep dimy dimx s s2) (hinv : GenInv dimy dimx s) :
    GenInv dimy dimx s2 := by
  obtain ⟨hwf, hh, hw, hcount, hfin, hnodup, hedges⟩ := hinv
  cases hstep with
  | seed count tries colors choose hfinished htries hsub hlen =>
    have htries2 : ∀ t ∈ tries, t.1 < s.placed_pixels.height ∧
        t.2 < s.placed_pixels.width := by
      intro t ht
      rw [hh, hw]
      exact htries t ht
    obtain ⟨pwf, ph, pw, pcount, pmono, pplaced, pnodup, _, _⟩ :=
      place_seeds_common_spec count tries colors choose s.image
        s.placed_pixels hwf htries2 hsub hlen
    unfold applySeed
    simp only
    refine ⟨pwf, by rw [ph, hh], by rw [pw, hw], ?_, ?_, ?_, ?_⟩
    · show s.pixelsPlaced + _ = _
      rw [pcount, hcount]
    · intro h
      have h2 : s.finished = true := h
      rw [hfinished] at h2
      cases h2
    · show (s.edges ++ _).Nodup
      rw [List.nodup_append]
      refine ⟨hnodup, pnodup, ?_⟩
      intro p hp hp2
      obtain ⟨_, _, hb1, hb2, hpget⟩ := hedges p hp
      obtain ⟨_, _, _, _, _, hfresh⟩ := pplaced p hp2
      rw [hpget] at hfresh
      cases hfresh
    · intro p hp
      rcases List.mem_append.mp hp with hp | hp
      · obtain ⟨h1, h2, h3, h4, h5⟩ := hedges p hp
        refine ⟨h1, h2, h3, h4, ?_⟩
        apply pmono
        · rw [hh]
          exact h3
        · rw [hw]
          exact h4
        · exact h5
      · obtain ⟨h1, h2, h3, h4, h5, _⟩ := pplaced p hp
        exact ⟨h1, h2, by rw [← hh]; exact h3, by rw [← hw]; exact h4, h5⟩
  | genColors k hfinished =>
    exact ⟨hwf, hh, hw, hcount, hfin, hnodup, hedges⟩
  | place offsets pixel color hfinished =>
    obtain ⟨hnone, hsome⟩ := place_pixel_inner_inv dimy dimx pixel color
      s.image s.edges s.placed_pixels offsets hwf hh hw hedges hnodup
    unfold applyPlace
    simp only
    cases hres : (place_pixel_inner dimy dimx pixel color s.image s.edges
        s.placed_pixels offsets).1 with
    | none =>
      exact ⟨hwf, hh, hw, hcount, hfin, hnodup, hedges⟩
    | some loc =>
      obtain ⟨qwf, qh, qw, qcount, qnodup, qedges⟩ := hsome loc hres
      refine ⟨qwf, qh, qw, ?_, ?_, qnodup, qedges⟩
      · show s.pixelsPlaced + 1 = _
        rw [qcount, hcount]
      · intro h
        have h2 : s.finished = true := h
        rw [hfinished] at h2
        cases h2
  | finish =>
    unfold applyFinishCheck
    by_cases hsize : s.pixelsPlaced = dimy * dimx
    · rw [if_pos hsize]
      refine ⟨hwf, hh, hw, hcount, ?_, hnodup, hedges⟩
      intro _
      exact hsize
    · rw [if_neg hsize]
      exact ⟨hwf, hh, hw, hcount, hfin, hnodup, hedges⟩
  | revalidate offsets hfinished =>
    refine ⟨hwf, hh, hw, hcount, hfin, ?_, ?_⟩
    · exact hnodup.filter _
    · intro p hp
      have hmem := (List.mem_filter.mp hp).1
      exact hedges p hmem

/-- Claim C7: throughout the generator's execution (every state reachable
from the setup state through generator steps), `pixels_placed` never
exceeds `size = dimy * dimx`, and whenever the generator has set the
`finished` flag, `pixels_placed = size`. -/
theorem C7_pixels_placed (dimy dimx maxval : Nat) (s : GenState)
    (h : Relation.ReflTransGen (GenStep dimy dimx)
      (initState dimy dimx maxval) s) :
    s.pixelsPlaced ≤ dimy * dimx ∧
      (s.finished = true → s.pixelsPlaced = dimy * dimx) := by
  have hinv : GenInv dimy dimx s := by
    induction h with
    | refl => exact GenInv_init dimy dimx maxval
    | tail hsteps hstep ih => exact GenInv_step dimy dimx _ _ hstep ih
  obtain ⟨hwf, hh, hw, hcount, hfin, _, _⟩ := hinv
  constructor
  · rw [hcount]
    have := BitMap.trueCount_le s.placed_pixels
    rw [hh, hw] at this
    exact this
  · exact hfin

/-- Closed witness for `C7_pixels_placed`: the freshly set-up 2 × 2 state
(reachable by the empty step sequence). -/
theorem C7_pixels_placed_witness :
    (initState 2 2 255).pixelsPlaced ≤ 2 * 2 ∧
      ((initState 2 2 255).finished = true →
        (initState 2 2 255).pixelsPlaced = 2 * 2) :=
  C7_pixels_placed 2 2 255 (initState 2 2 255) Relation.ReflTransGen.refl
